import Mathlib

/-!
Log classification engine (`classification/classifier.go`).

A shallow embedding of `Classifier.Classify`, `safeLogParse`, `Classifier.updateStats`
and `classifierStream.Next`, together with the parts of Go's `container/heap` and
`strings` packages they call, and of `DNSParser.Parse` (`parsers/suricata/dns.go`).

Conventions.
* Go `uint64` counters are natural numbers; every addition is followed by an explicit
  `% 2^64`.
* Go strings are Lean strings (valid UTF-8); `len` is the UTF-8 byte length.
* `time.Now()` readings enter as a `Clock` argument holding the measured durations.
* The `for` loops of `heap.up`, `heap.down` and `Classify` are structurally recursive on a
  fuel argument; the adequacy lemmas below show that the fuel supplied by the callers is
  never exhausted before the loop exits by itself.
-/

namespace Panther

/-! ## Go strings -/

/-- Go `len(s)` for a string: the number of bytes. -/
def len (s : String) : Nat := s.utf8ByteSize

/-- Go `unicode.IsSpace`: the Unicode `White_Space` property. -/
def isSpace (c : Char) : Bool :=
  let n := c.toNat
  (9 ≤ n && n ≤ 13) || n == 32 || n == 0x85 || n == 0xA0 || n == 0x1680 ||
  (0x2000 ≤ n && n ≤ 0x200a) || n == 0x2028 || n == 0x2029 || n == 0x202f ||
  n == 0x205f || n == 0x3000

/-- Go `strings.TrimSpace`: the string without its leading and trailing white space. -/
def TrimSpace (s : String) : String :=
  ⟨((s.data.dropWhile isSpace).reverse.dropWhile isSpace).reverse⟩

/-- Go conversion `uint64(x)` of a signed 64-bit value. -/
def toUint64 (x : Int) : Nat := (x % (2 ^ 64 : Int)).toNat

/-! ## Parser abstraction -/

/-- Parsed event `parsers.Result`; the classifier reads only its `LogType`. -/
structure Result where
  LogType : String
  payload : String
deriving DecidableEq, Repr

/-- Outcome of one `Next()` call on a result stream. -/
inductive StreamStep where
  | event (r : Result)
  | fail (msg : String)
deriving DecidableEq, Repr

/-- Modelled from the spec: `parsers.ResultStream` (package `parsers` is absent), a lazy,
finite, non-restartable sequence of events; the list holds the steps still to come and the
empty list is the exhausted stream. -/
abbrev ResultStream := List StreamStep

/-- Go `error` values as far as the classifier tells them apart. The constructor
`parserPanic` is the error that `errors.Errorf("parser %q panic: %v", logType, r)` builds in
`safeLogParse`, kept as the two arguments of the format: the logType, and the text that
`%v` prints for the recovered value `r`. -/
inductive GoError where
  | StreamResultsError (stream : ResultStream)
  | EOF
  | other (msg : String)
  | parserPanic (logType : String) (value : String)
deriving DecidableEq, Repr

/-- Modelled from the spec: `ResultStream.Next`, which returns the next event, or the
end-of-stream signal, or fails with an error that is terminal. -/
def ResultStream.Next : ResultStream → (Option Result × Option GoError) × ResultStream
  | [] => ((none, some GoError.EOF), [])
  | StreamStep.event r :: rest => ((some r, none), rest)
  | StreamStep.fail msg :: _ => ((none, some (GoError.other msg)), [])

/-- What a call `parser.ParseLog(log)` does: it returns the Go pair `(results, err)`, or it
panics. The argument of `panics` is the value that `recover()` then returns: `none` for the
nil value, which a parser that calls `panic(nil)` leaves behind in the Go of this repository
(before Go 1.21), and otherwise the text that `%v` prints for the value. -/
inductive ParseLogOutcome where
  | returns (results : Option (List Result)) (err : Option GoError)
  | panics (r : Option String)
deriving DecidableEq, Repr

/-- Interface `parsers.Interface`: a parser is its `ParseLog` method, a function of the
line. -/
abbrev ParserInterface := String → ParseLogOutcome

/-- Go `safeLogParse`. When the parser panics the deferred function runs: it sets the error
and clears the results only under its guard `r != nil`; after a panic with the nil value
the named results are returned as they stand, both nil. -/
def safeLogParse (logType : String) (parser : ParserInterface) (log : String) :
    Option (List Result) × Option GoError :=
  match parser log with
  | ParseLogOutcome.panics r =>
    match r with
    | some value => (none, some (GoError.parserPanic logType value))
    | none => (none, none)
  | ParseLogOutcome.returns results err =>
    match err with
    | some e => (none, some e)
    | none => (results, none)

/-! ## Adaptive priority queue -/

/-- Modelled from the spec: `ParserQueueItem` (file `priority_queue.go` is absent), one
(parser, penalty) pair; `penalty` is a non-negative integer and the ordering key is
(penalty, insertionIndex). -/
structure ParserQueueItem where
  logType : String
  parser : ParserInterface
  penalty : Nat
  insertionIndex : Nat

/-- Modelled from the spec: the ordering of queue items, ascending penalty with ties broken
by insertion order. -/
def ParserQueueItem.less (x y : ParserQueueItem) : Bool :=
  x.penalty < y.penalty || (x.penalty == y.penalty && x.insertionIndex < y.insertionIndex)

/-- Modelled from the spec: `ParserPriorityQueue` (file `priority_queue.go` is absent), a
binary min-heap stored in a slice, as required by `container/heap`. -/
structure ParserPriorityQueue where
  items : List ParserQueueItem

namespace ParserPriorityQueue

/-- Modelled from the spec: `Len`, the number of queued items. -/
def Len (q : ParserPriorityQueue) : Nat := q.items.length

/-- Modelled from the spec: `Less(i, j)` of `heap.Interface`, comparing the keys of the items
at two positions. -/
def Less (q : ParserPriorityQueue) (i j : Nat) : Bool :=
  match q.items[i]?, q.items[j]? with
  | some x, some y => x.less y
  | _, _ => false

/-- Modelled from the spec: `Swap(i, j)` of `heap.Interface`. -/
def Swap (q : ParserPriorityQueue) (i j : Nat) : ParserPriorityQueue :=
  match q.items[i]?, q.items[j]? with
  | some x, some y => ⟨(q.items.set i y).set j x⟩
  | _, _ => q

/-- Modelled from the spec: `Push(x)` of `heap.Interface`, appending at the end of the
slice. -/
def Push (q : ParserPriorityQueue) (x : ParserQueueItem) : ParserPriorityQueue :=
  ⟨q.items ++ [x]⟩

/-- Modelled from the spec: `Pop()` of `heap.Interface`, removing the last element of the
slice. -/
def Pop (q : ParserPriorityQueue) : Option (ParserQueueItem × ParserPriorityQueue) :=
  match q.items.getLast? with
  | none => none
  | some x => some (x, ⟨q.items.dropLast⟩)

/-- Modelled from the spec: `Peek`, the top item, not removed. -/
def Peek (q : ParserPriorityQueue) : Option ParserQueueItem := q.items[0]?

/-- The assignment `currentItem.penalty = p` through the pointer returned by `Peek`: the
item at the root changes in place and nothing is reordered. -/
def setPeekPenalty (q : ParserPriorityQueue) (p : Nat) : ParserPriorityQueue :=
  match q.items with
  | [] => q
  | x :: rest => ⟨{ x with penalty := p } :: rest⟩

end ParserPriorityQueue

/-! ## Go `container/heap` -/

namespace heap

/-- Go `heap.up`: the loop body runs at most `fuel` times. -/
def up : Nat → ParserPriorityQueue → Nat → ParserPriorityQueue
  | 0, h, _ => h
  | fuel + 1, h, j =>
    let i := (j - 1) / 2
    if i = j || !h.Less j i then h
    else up fuel (h.Swap i j) i

/-- Go `heap.down` on the first `n` positions: the loop body runs at most `fuel` times. -/
def down : Nat → ParserPriorityQueue → Nat → Nat → ParserPriorityQueue
  | 0, h, _, _ => h
  | fuel + 1, h, i, n =>
    let j1 := 2 * i + 1
    if j1 ≥ n then h
    else
      let j := if j1 + 1 < n && h.Less (j1 + 1) j1 then j1 + 1 else j1
      if !h.Less j i then h
      else down fuel (h.Swap i j) j n

/-- Go `heap.Push`. -/
def Push (h : ParserPriorityQueue) (x : ParserQueueItem) : ParserPriorityQueue :=
  let h1 := h.Push x
  up h1.Len h1 (h1.Len - 1)

/-- Go `heap.Pop`; `none` stands for the run-time fault on an empty queue. -/
def Pop (h : ParserPriorityQueue) : Option (ParserQueueItem × ParserPriorityQueue) :=
  if h.Len = 0 then none
  else
    let n := h.Len - 1
    (down n (h.Swap 0 n) 0 n).Pop

end heap

/-- Modelled from the spec: `NewParserPriorityQueue`, which inserts the parsers in the order
their logTypes are enumerated, each with penalty zero. -/
def NewParserPriorityQueue (parsers : List (String × ParserInterface)) : ParserPriorityQueue :=
  parsers.foldl
    (fun q lp => heap.Push q
      { logType := lp.1, parser := lp.2, penalty := 0, insertionIndex := q.Len })
    ⟨[]⟩

/-! ## Statistics -/

/-- Go `ClassifierStats`: the aggregate counters. -/
structure ClassifierStats where
  ClassifyTimeMicroseconds : Nat := 0
  BytesProcessedCount : Nat := 0
  LogLineCount : Nat := 0
  EventCount : Nat := 0
  SuccessfullyClassifiedCount : Nat := 0
  ClassificationFailureCount : Nat := 0
deriving DecidableEq, Repr

/-- Go `ParserStats`: the counters kept per logType. -/
structure ParserStats where
  ParserTimeMicroseconds : Nat := 0
  BytesProcessedCount : Nat := 0
  LogLineCount : Nat := 0
  EventCount : Nat := 0
  LogType : String := ""
deriving DecidableEq, Repr

/-- The Go map `map[string]*ParserStats`. -/
abbrev ParserStatsMap := String → Option ParserStats

/-- Go `Classifier.updateStats`, acting on the per-parser table. -/
def updateStats (parserStats : ParserStatsMap) (stats : ParserStats) : ParserStatsMap :=
  let logType := stats.LogType
  if logType = "" then parserStats
  else
    match parserStats logType with
    | none => Function.update parserStats logType (some stats)
    | some entry =>
      Function.update parserStats logType (some
        { entry with
          ParserTimeMicroseconds :=
            (entry.ParserTimeMicroseconds + stats.ParserTimeMicroseconds) % 2 ^ 64
          BytesProcessedCount := (entry.BytesProcessedCount + stats.BytesProcessedCount) % 2 ^ 64
          LogLineCount := (entry.LogLineCount + stats.LogLineCount) % 2 ^ 64
          EventCount := (entry.EventCount + stats.EventCount) % 2 ^ 64 })

/-! ## Classifier -/

/-- Go `classifierStream`; the back-pointer to the classifier is the classifier state handed
to `classifierStream.Next`. -/
structure classifierStream where
  stream : ResultStream
deriving DecidableEq, Repr

/-- Go `ClassifierResult`; `none` is Go's `nil`. -/
structure ClassifierResult where
  Events : Option (List Result) := none
  LogType : Option String := none
  Stream : Option classifierStream := none
deriving DecidableEq, Repr

/-- Go `len(result.Events)`: a nil slice has length zero. -/
def eventsLen (events : Option (List Result)) : Nat :=
  match events with
  | none => 0
  | some l => l.length

/-- Go `Classifier`. -/
structure Classifier where
  parsers : ParserPriorityQueue
  stats : ClassifierStats := {}
  parserStats : ParserStatsMap := fun _ => none

/-- Go `NewClassifier`; the argument lists the parser map in its enumeration order. -/
def NewClassifier (parsers : List (String × ParserInterface)) : Classifier :=
  { parsers := NewParserPriorityQueue parsers }

/-- The durations that the calls of `time.Now` and `time.Since` inside one `Classify` call
measure, in microseconds as signed 64-bit values. -/
structure Clock where
  /-- Value of `time.Since(startClassify).Microseconds()` when the call returns. -/
  classifyMicros : Int
  /-- Value of `endParseTime.Sub(startParseTime).Microseconds()` in loop iteration `k`. -/
  parseMicros : Nat → Int

/-- The local variables of `Classify` that its loop reads and writes, and the record
`invoked` of the queue items whose parser the loop has called, in call order. -/
structure LoopState where
  parsers : ParserPriorityQueue
  popped : List ParserQueueItem
  result : ClassifierResult
  parserStats : ParserStatsMap
  invoked : List ParserQueueItem

/-- The loop `for c.parsers.Len() > 0 { ... }` of `Classify`, on the trimmed line. -/
def classifyLoop (clock : Clock) (log : String) : Nat → LoopState → LoopState
  | 0, st => st
  | fuel + 1, st =>
    if st.parsers.Len > 0 then
      match st.parsers.Peek with
      | none => st
      | some currentItem =>
        let logType := currentItem.logType
        let parseTime := toUint64 (clock.parseMicros st.invoked.length)
        let invoked := st.invoked ++ [currentItem]
        match safeLogParse logType currentItem.parser log with
        | (parsedEvents, none) =>
          { st with
            result := { st.result with LogType := some logType, Events := parsedEvents }
            parsers := st.parsers.setPeekPenalty 0
            parserStats := updateStats st.parserStats
              { LogType := logType
                ParserTimeMicroseconds := parseTime
                BytesProcessedCount := len log
                LogLineCount := 1
                EventCount := eventsLen parsedEvents }
            invoked := invoked }
        | (_, some (GoError.StreamResultsError stream)) =>
          { st with
            result := { st.result with LogType := some logType, Stream := some ⟨stream⟩ }
            parsers := st.parsers.setPeekPenalty 0
            parserStats := updateStats st.parserStats
              { LogType := logType
                ParserTimeMicroseconds := parseTime
                BytesProcessedCount := len log
                LogLineCount := 1 }
            invoked := invoked }
        | (_, some _) =>
          match heap.Pop st.parsers with
          | none => st
          | some (item, rest) =>
            classifyLoop clock log fuel
              { st with
                parsers := rest
                popped := st.popped ++ [{ item with penalty := item.penalty + 1 }]
                invoked := invoked }
    else st

/-- The deferred closure of `Classify` that updates the aggregate stats; `log` is the value
of the variable `log` when the function returns, that is, the trimmed line. -/
def deferredStats (stats : ClassifierStats) (clock : Clock) (log : String)
    (result : ClassifierResult) : ClassifierStats :=
  let stats1 : ClassifierStats :=
    { stats with
      ClassifyTimeMicroseconds := toUint64 clock.classifyMicros
      BytesProcessedCount := (stats.BytesProcessedCount + len log) % 2 ^ 64
      LogLineCount := (stats.LogLineCount + 1) % 2 ^ 64
      EventCount := (stats.EventCount + eventsLen result.Events) % 2 ^ 64 }
  if len log > 0 then
    if result.LogType = none then
      { stats1 with
        ClassificationFailureCount := (stats.ClassificationFailureCount + 1) % 2 ^ 64 }
    else
      { stats1 with
        SuccessfullyClassifiedCount := (stats.SuccessfullyClassifiedCount + 1) % 2 ^ 64 }
  else stats1

/-- What one `Classify` call leaves behind: the returned result, the classifier afterwards,
and the queue items whose parser was called, in call order. -/
structure ClassifyOutput where
  result : ClassifierResult
  classifier : Classifier
  invoked : List ParserQueueItem

/-- Go `Classifier.Classify`. -/
def Classify (c : Classifier) (log : String) (clock : Clock) : ClassifyOutput :=
  let result : ClassifierResult := {}
  if len log = 0 then ⟨result, c, []⟩
  else
    let log := TrimSpace log
    if len log = 0 then
      ⟨result, { c with stats := deferredStats c.stats clock log result }, []⟩
    else
      let st := classifyLoop clock log c.parsers.Len
        { parsers := c.parsers, popped := [], result := result,
          parserStats := c.parserStats, invoked := [] }
      let parsers := st.popped.foldl (fun q item => heap.Push q item) st.parsers
      ⟨st.result,
        { parsers := parsers
          stats := deferredStats c.stats clock log st.result
          parserStats := st.parserStats },
        st.invoked⟩

/-- Go `classifierStream.Next`; `elapsed` is `time.Since(startTime).Microseconds()`. The
second case, a nil event with a nil error, is never produced by `ResultStream.Next`. -/
def classifierStream.Next (s : classifierStream) (c : Classifier) (elapsed : Int) :
    (Option Result × Option GoError) × classifierStream × Classifier :=
  match s.stream.Next with
  | ((_, some err), stream) => ((none, some err), ⟨stream⟩, c)
  | ((none, none), stream) => ((none, none), ⟨stream⟩, c)
  | ((some r, none), stream) =>
    ((some r, none), ⟨stream⟩,
      { c with
        parserStats := updateStats c.parserStats
          { LogType := r.LogType
            ParserTimeMicroseconds := toUint64 elapsed
            EventCount := 1 } })

/-! ## Vocabulary of the properties -/

/-- The parser of a queue item succeeds on a line: guarded by `safeLogParse`, it returns a
batch (no error) or signals a stream (a `StreamResultsError`). -/
def accepts (log : String) (item : ParserQueueItem) : Bool :=
  match (safeLogParse item.logType item.parser log).2 with
  | none => true
  | some (GoError.StreamResultsError _) => true
  | some _ => false

/-- The statement `currentItem.penalty++`. -/
def bump (item : ParserQueueItem) : ParserQueueItem :=
  { item with penalty := item.penalty + 1 }

/-- The statement `currentItem.penalty = 0`. -/
def reset (item : ParserQueueItem) : ParserQueueItem :=
  { item with penalty := 0 }

/-- What one `Classify` call on the trimmed line `log` does to a queue item whose parser it
invokes: the penalty becomes zero on success and grows by one on a recognition failure. -/
def touch (log : String) (item : ParserQueueItem) : ParserQueueItem :=
  if accepts log item then reset item else bump item

/-- The same queue item carrying another parser, `g logType parser` in place of `parser`. -/
def replaceParser (g : String → ParserInterface → ParserInterface) (item : ParserQueueItem) :
    ParserQueueItem :=
  { item with parser := g item.logType item.parser }

/-- The same queue with the parser of every item replaced. -/
def ParserPriorityQueue.withParsers (q : ParserPriorityQueue)
    (g : String → ParserInterface → ParserInterface) : ParserPriorityQueue :=
  ⟨q.items.map (replaceParser g)⟩

/-- The same classifier with the parser of every queued item replaced. -/
def Classifier.withParsers (c : Classifier)
    (g : String → ParserInterface → ParserInterface) : Classifier :=
  { c with parsers := c.parsers.withParsers g }

/-- A parser that behaves like `parser`, except that where `parser` panics with a value
that is not nil it returns the error that `safeLogParse` would build. -/
def recovered (logType : String) (parser : ParserInterface) : ParserInterface := fun log =>
  match parser log with
  | ParseLogOutcome.panics (some value) =>
    ParseLogOutcome.returns none (some (GoError.parserPanic logType value))
  | ParseLogOutcome.panics none => ParseLogOutcome.panics none
  | ParseLogOutcome.returns results err => ParseLogOutcome.returns results err

/-- The queue that `heap.Pop` leaves behind when `t` are the items stored behind the root. -/
def popRest (t : List ParserQueueItem) : ParserPriorityQueue :=
  heap.down t.length ⟨t.getLast?.toList ++ t.dropLast⟩ 0 t.length

/-- The items that at most `fuel` successive calls of `heap.Pop` yield, in order. -/
def popOrder : Nat → ParserPriorityQueue → List ParserQueueItem
  | 0, _ => []
  | fuel + 1, q =>
    match heap.Pop q with
    | none => []
    | some (item, rest) => item :: popOrder fuel rest

/-- The penalty of the item stored at position `k` of the queue (zero behind the end). -/
def penaltyAt (q : ParserPriorityQueue) (k : Nat) : Nat :=
  match q.items[k]? with
  | some x => x.penalty
  | none => 0

/-- The queue is a min-heap on penalty: no item has a smaller penalty than the item at its
parent position `(j - 1) / 2`. -/
def IsHeap (q : ParserPriorityQueue) : Prop :=
  ∀ j, 0 < j → j < q.Len → penaltyAt q ((j - 1) / 2) ≤ penaltyAt q j

/-- A sequence of `Classify` calls on one classifier, each with its line and its clock. -/
def classifyAll (c : Classifier) : List (String × Clock) → Classifier
  | [] => c
  | (log, clock) :: rest => classifyAll (Classify c log clock).classifier rest

/-- The number of parser invocations made by each call of a sequence of `Classify` calls. -/
def invocationCounts (c : Classifier) : List (String × Clock) → List Nat
  | [] => []
  | (log, clock) :: rest =>
    (Classify c log clock).invoked.length ::
      invocationCounts (Classify c log clock).classifier rest

/-- Every counter of the aggregate stats is a `uint64` value. -/
def ClassifierStats.InRange (s : ClassifierStats) : Prop :=
  s.ClassifyTimeMicroseconds < 2 ^ 64 ∧ s.BytesProcessedCount < 2 ^ 64 ∧
  s.LogLineCount < 2 ^ 64 ∧ s.EventCount < 2 ^ 64 ∧
  s.SuccessfullyClassifiedCount < 2 ^ 64 ∧ s.ClassificationFailureCount < 2 ^ 64

/-! ## Scenario data -/

/-- A parser that accepts exactly the lines starting with `ch`, yielding one event. -/
def prefixParser (logType : String) (ch : Char) : ParserInterface := fun log =>
  if log.data.head? = some ch then
    ParseLogOutcome.returns (some [⟨logType, log⟩]) none
  else
    ParseLogOutcome.returns none (some (GoError.other "no match"))

/-- A clock on which every measured duration is zero. -/
def zeroClock : Clock := ⟨0, fun _ => 0⟩

/-- The two-parser classifier of the adaptive reordering scenario: `A` first, then `B`. -/
def abClassifier : Classifier :=
  NewClassifier [("A", prefixParser "A" 'a'), ("B", prefixParser "B" 'b')]

/-- The classifier of the panic isolation scenario: `P` panics on every line, with a value
that prints as `boom`, and `Q` accepts every line. -/
def panicClassifier : Classifier :=
  NewClassifier
    [("P", fun _ => ParseLogOutcome.panics (some "boom")),
     ("Q", fun log => ParseLogOutcome.returns (some [⟨"Q", log⟩]) none)]

/-- The panic isolation scenario with the nil panic value: `P` calls `panic(nil)` on every
line, and `Q` accepts every line. -/
def nilPanicClassifier : Classifier :=
  NewClassifier
    [("P", fun _ => ParseLogOutcome.panics none),
     ("Q", fun log => ParseLogOutcome.returns (some [⟨"Q", log⟩]) none)]

/-- A classifier whose only parser recognises every line and returns an empty batch. -/
def emptyBatchClassifier : Classifier :=
  NewClassifier [("E", fun _ => ParseLogOutcome.returns (some []) none)]



/-! ## Sessions: `Classify` calls interleaved with `Next` calls -/

/-- One step taken by the caller of a classifier: a `Classify` call, or a `Next` call on the
`i`-th of the wrapped streams that the `Classify` calls so far have returned. -/
inductive Op where
  | classify (log : String) (clock : Clock)
  | next (i : Nat) (elapsed : Int)

/-- A classifier in use: its state, the wrapped streams returned so far, each in its current
state, and, per logType, the number of events delivered to the caller so far, that is, the
lengths of the batches returned by `Classify` with that `result.LogType` plus the events of
that `LogType` returned by `Next`. -/
structure Session where
  classifier : Classifier
  streams : List classifierStream
  delivered : String → Nat

/-- The session after one step of the caller. -/
def Session.step (s : Session) : Op → Session
  | Op.classify log clock =>
    { classifier := (Classify s.classifier log clock).classifier
      streams :=
        match (Classify s.classifier log clock).result.Stream with
        | none => s.streams
        | some stream => s.streams ++ [stream]
      delivered :=
        match (Classify s.classifier log clock).result.LogType with
        | none => s.delivered
        | some t =>
          Function.update s.delivered t
            (s.delivered t + eventsLen (Classify s.classifier log clock).result.Events) }
  | Op.next i elapsed =>
    match s.streams[i]? with
    | none => s
    | some stream =>
      { classifier := (stream.Next s.classifier elapsed).2.2
        streams := s.streams.set i (stream.Next s.classifier elapsed).2.1
        delivered :=
          match (stream.Next s.classifier elapsed).1 with
          | (some r, none) => Function.update s.delivered r.LogType (s.delivered r.LogType + 1)
          | _ => s.delivered }

/-- The session after a sequence of steps. -/
def Session.run (s : Session) (ops : List Op) : Session := ops.foldl Session.step s

/-- The session that starts with a fresh classifier. -/
def Session.fresh (parsers : List (String × ParserInterface)) : Session :=
  { classifier := NewClassifier parsers, streams := [], delivered := fun _ => 0 }

/-- The `EventCount` recorded in the per-parser table under a logType; zero when the table
has no entry for it. -/
def eventCountOf (m : ParserStatsMap) (t : String) : Nat :=
  match m t with
  | none => 0
  | some entry => entry.EventCount

/-- The parsers of the streaming scenario: `S` signals a stream of three events of its own
logType. -/
def streamParsers : List (String × ParserInterface) :=
  [("S", fun _ => ParseLogOutcome.returns none (some (GoError.StreamResultsError
    [StreamStep.event ⟨"S", "e1"⟩, StreamStep.event ⟨"S", "e2"⟩,
      StreamStep.event ⟨"S", "e3"⟩])))]

/-- A parser list whose only parser `S` signals a stream of one event that carries the empty
logType. -/
def emptyTagParsers : List (String × ParserInterface) :=
  [("S", fun _ => ParseLogOutcome.returns none (some (GoError.StreamResultsError
    [StreamStep.event ⟨"", "e"⟩])))]

/-! ## Suricata DNS parser (`parsers/suricata/dns.go`) -/

/-- How a piece of Go code ends: it returns a value, or it stops with a run-time fault (in
this file always the dereference of a nil pointer). -/
inductive Run (α : Type) where
  | returns (a : α)
  | faults
deriving DecidableEq, Repr

/-- Go `DNSDetailsAnswers`; `none` is a nil pointer. -/
structure DNSDetailsAnswers where
  Rdata : Option String := none
  Rrname : Option String := none
  Rrtype : Option String := none
  TTL : Option Int := none
deriving DecidableEq, Repr

/-- Go `DNSDetailsGrouped`. -/
structure DNSDetailsGrouped where
  A : List String := []
  Aaaa : List String := []
  Cname : List String := []
  Mx : List String := []
  Ptr : List String := []
  Txt : List String := []
deriving DecidableEq, Repr

/-- Go `DNSDetailsAuthorities`. -/
structure DNSDetailsAuthorities where
  Rrname : Option String := none
  Rrtype : Option String := none
  TTL : Option Int := none
deriving DecidableEq, Repr

/-- Go `DNSDetails`; the field `Type` of the source is `Type_` here. -/
structure DNSDetails where
  Aa : Option Bool := none
  Answers : List DNSDetailsAnswers := []
  Authorities : List DNSDetailsAuthorities := []
  Flags : Option String := none
  Grouped : Option DNSDetailsGrouped := none
  ID : Option Int := none
  Qr : Option Bool := none
  Ra : Option Bool := none
  Rcode : Option String := none
  Rd : Option Bool := none
  Rrname : Option String := none
  Rrtype : Option String := none
  TxID : Option Int := none
  Type_ : Option String := none
  Version : Option Int := none
deriving DecidableEq, Repr

/-- Modelled from the spec: `parsers.PantherLog` (package `parsers` is absent), the parsed
event, which carries a logType tag, a source timestamp if one could be extracted, and a
payload that the core does not look into. -/
structure PantherLog where
  logType : Option String := none
  eventTime : Option String := none
  payload : List String := []
deriving DecidableEq, Repr

/-- Go `DNS`: the decoded event; every pointer field is `none` until the decoder sets it. -/
structure DNS where
  CommunityID : Option String := none
  DNS : Option DNSDetails := none
  DestIP : Option String := none
  DestPort : Option Int := none
  EventType : Option String := none
  FlowID : Option Int := none
  PcapCnt : Option Int := none
  PcapFilename : Option String := none
  Proto : Option String := none
  SrcIP : Option String := none
  SrcPort : Option Int := none
  Timestamp : Option String := none
  Vlan : List Int := []
  PantherLog : PantherLog := {}
deriving DecidableEq, Repr

/-- The code that `dns.go` calls and that lies outside it: the JSON decoder, the timestamp
parser, the methods of the embedded `PantherLog` and the validator. -/
structure DNSCollaborators where
  /-- The call `jsoniter.UnmarshalFromString(log, event)` on a fresh `DNS`: the decoded
  event, or `none` when it returns an error. -/
  unmarshal : String → Option DNS
  /-- The call `timestamp.Parse(time.RFC3339Nano, s)`, whose error the caller drops. -/
  timestampParse : String → String
  /-- The call `event.SetCoreFields(logType, eventTime, event)`. -/
  setCoreFields : DNS → String → String → DNS
  /-- The call `event.AppendAnyIPAddressPtrs(srcIP, destIP)`. -/
  appendAnyIPAddressPtrs : DNS → Option String → Option String → DNS
  /-- Whether `parsers.Validator.Struct(event)` returns no error. -/
  validate : DNS → Bool
  /-- The call `event.Logs()`. -/
  logs : DNS → List PantherLog

/-- Go `DNSParser.LogType`. -/
def DNSParser.LogType : String := "Suricata.DNS"

/-- Go `DNS.updatePantherFields`: the argument `*event.Timestamp` is evaluated first and
stops the program when the pointer is nil. -/
def DNS.updatePantherFields (k : DNSCollaborators) (event : Panther.DNS) : Run Panther.DNS :=
  match event.Timestamp with
  | none => Run.faults
  | some ts =>
    let eventTime := k.timestampParse ts
    let event1 := k.setCoreFields event DNSParser.LogType eventTime
    Run.returns (k.appendAnyIPAddressPtrs event1 event1.SrcIP event1.DestIP)

/-- Go `DNSParser.Parse`; `none` in the returned value is the nil slice. -/
def DNSParser.Parse (k : DNSCollaborators) (log : String) : Run (Option (List PantherLog)) :=
  match k.unmarshal log with
  | none => Run.returns none
  | some event =>
    match DNS.updatePantherFields k event with
    | Run.faults => Run.faults
    | Run.returns event1 =>
      if k.validate event1 then Run.returns (some (k.logs event1))
      else Run.returns none

/-- Collaborators for documents without members: the decoder accepts the empty JSON object,
leaving every field of the event as it was, and rejects any other text; the validator
demands the fields tagged `required`. -/
def emptyObjectCollaborators : DNSCollaborators :=
  { unmarshal := fun log => if log = "\x7b\x7d" then some {} else none
    timestampParse := fun s => s
    setCoreFields := fun event logType eventTime =>
      { event with PantherLog := { logType := some logType, eventTime := some eventTime } }
    appendAnyIPAddressPtrs := fun event _ _ => event
    validate := fun event =>
      event.DNS.isSome && event.DestIP.isSome && event.EventType.isSome &&
        event.Proto.isSome && event.SrcIP.isSome && event.Timestamp.isSome
    logs := fun event => [event.PantherLog] }

/-! ## Lists: exchanging two positions -/

theorem cons_set_perm {α : Type} (a y : α) :
    ∀ (t : List α) (k : Nat), t[k]? = some y → (y :: t.set k a).Perm (a :: t) := by
  intro t
  induction t with
  | nil => intro k h; simp at h
  | cons b t ih =>
    intro k h
    cases k with
    | zero =>
      simp at h
      subst h
      simpa using List.Perm.swap a b t
    | succ k =>
      simp at h
      have h1 := ih k h
      simp only [List.set_cons_succ]
      exact (List.Perm.swap b y _).trans ((h1.cons b).trans (List.Perm.swap a b t))

theorem set_set_perm_of_getElem? {α : Type} :
    ∀ (l : List α) (i j : Nat) (x y : α), l[i]? = some x → l[j]? = some y →
      ((l.set i y).set j x).Perm l := by
  intro l
  induction l with
  | nil => intro i j x y h; simp at h
  | cons a t ih =>
    intro i j x y hi hj
    cases i with
    | zero =>
      simp at hi
      subst hi
      cases j with
      | zero => simp at hj; subst hj; simp
      | succ j =>
        simp at hj
        simpa using cons_set_perm a y t j hj
    | succ i =>
      simp at hi
      cases j with
      | zero =>
        simp at hj
        subst hj
        simpa using cons_set_perm a x t i hi
      | succ j =>
        simp at hj
        simpa using ih i j x y hi hj

/-! ## The queue as a multiset: `Swap`, `up`, `down`, `heap.Push`, `heap.Pop` -/

theorem Swap_perm (q : ParserPriorityQueue) (i j : Nat) : (q.Swap i j).items.Perm q.items := by
  unfold ParserPriorityQueue.Swap
  split
  · next x y hx hy => exact set_set_perm_of_getElem? q.items i j x y hx hy
  · exact List.Perm.refl _

theorem Swap_Len (q : ParserPriorityQueue) (i j : Nat) : (q.Swap i j).Len = q.Len := by
  simpa [ParserPriorityQueue.Len] using (Swap_perm q i j).length_eq

theorem up_perm : ∀ (fuel : Nat) (h : ParserPriorityQueue) (j : Nat),
    (heap.up fuel h j).items.Perm h.items := by
  intro fuel
  induction fuel with
  | zero => intro h j; exact List.Perm.refl _
  | succ fuel ih =>
    intro h j
    simp only [heap.up]
    split
    · exact List.Perm.refl _
    · exact (ih _ _).trans (Swap_perm h _ _)

theorem down_perm : ∀ (fuel : Nat) (h : ParserPriorityQueue) (i n : Nat),
    (heap.down fuel h i n).items.Perm h.items := by
  intro fuel
  induction fuel with
  | zero => intro h i n; exact List.Perm.refl _
  | succ fuel ih =>
    intro h i n
    simp only [heap.down]
    split_ifs <;>
      first
        | exact List.Perm.refl _
        | exact (ih _ _ _).trans (Swap_perm h _ _)

theorem heapPush_perm (h : ParserPriorityQueue) (x : ParserQueueItem) :
    (heap.Push h x).items.Perm (x :: h.items) := by
  unfold heap.Push
  refine (up_perm _ _ _).trans ?_
  simp [ParserPriorityQueue.Push]


theorem Less_append_left (l r : List ParserQueueItem) (i j : Nat)
    (hi : i < l.length) (hj : j < l.length) :
    (⟨l ++ r⟩ : ParserPriorityQueue).Less i j = (⟨l⟩ : ParserPriorityQueue).Less i j := by
  simp [ParserPriorityQueue.Less, List.getElem?_append_left hi, List.getElem?_append_left hj]

theorem Swap_append_left (l r : List ParserQueueItem) (i j : Nat)
    (hi : i < l.length) (hj : j < l.length) :
    (⟨l ++ r⟩ : ParserPriorityQueue).Swap i j =
      ⟨((⟨l⟩ : ParserPriorityQueue).Swap i j).items ++ r⟩ := by
  simp [ParserPriorityQueue.Swap, List.getElem?_append_left hi, List.getElem?_append_left hj,
    List.getElem?_eq_getElem hi, List.getElem?_eq_getElem hj, List.set_append_left, hi, hj]

/-- Running `heap.down` on the first `n` positions does not look at, nor move, what is stored
behind them. -/
theorem down_append (r : List ParserQueueItem) :
    ∀ (fuel : Nat) (l : List ParserQueueItem) (i n : Nat), n ≤ l.length →
      (heap.down fuel ⟨l ++ r⟩ i n).items = (heap.down fuel ⟨l⟩ i n).items ++ r := by
  intro fuel
  induction fuel with
  | zero => intro l i n _; rfl
  | succ fuel ih =>
    intro l i n hn
    simp only [heap.down]
    by_cases h1 : 2 * i + 1 ≥ n
    · simp [h1]
    · have hi : i < l.length := by omega
      have hj1 : 2 * i + 1 < l.length := by omega
      have hb : (decide (2 * i + 1 + 1 < n) &&
            (⟨l ++ r⟩ : ParserPriorityQueue).Less (2 * i + 1 + 1) (2 * i + 1)) =
          (decide (2 * i + 1 + 1 < n) &&
            (⟨l⟩ : ParserPriorityQueue).Less (2 * i + 1 + 1) (2 * i + 1)) := by
        by_cases h2 : 2 * i + 1 + 1 < n
        · simp [h2, Less_append_left l r _ _ (show 2 * i + 1 + 1 < l.length by omega) hj1]
        · simp [h2]
      simp only [h1, if_false, hb]
      have hjlt : (if (decide (2 * i + 1 + 1 < n) &&
            (⟨l⟩ : ParserPriorityQueue).Less (2 * i + 1 + 1) (2 * i + 1)) = true
          then 2 * i + 1 + 1 else 2 * i + 1) < n := by
        split_ifs with h
        · simp at h; omega
        · omega
      generalize (if (decide (2 * i + 1 + 1 < n) &&
            (⟨l⟩ : ParserPriorityQueue).Less (2 * i + 1 + 1) (2 * i + 1)) = true
          then 2 * i + 1 + 1 else 2 * i + 1) = j at hjlt ⊢
      have hj : j < l.length := by omega
      rw [Less_append_left l r _ _ hj hi, Swap_append_left l r _ _ hi hj]
      split_ifs
      · rfl
      · exact ih _ _ _ (by
          have := Swap_Len (⟨l⟩ : ParserPriorityQueue) i j
          simp only [ParserPriorityQueue.Len] at this
          omega)

/-- On a non-empty queue `heap.Pop` returns the item stored at the root, and leaves what
`heap.down` makes of the other items with the last one moved to the root. -/
theorem heapPop_cons (x : ParserQueueItem) (t : List ParserQueueItem) :
    heap.Pop ⟨x :: t⟩ =
      some (x, heap.down t.length ⟨t.getLast?.toList ++ t.dropLast⟩ 0 t.length) := by
  rcases List.eq_nil_or_concat t with rfl | ⟨t1, z, rfl⟩
  · simp [heap.Pop, ParserPriorityQueue.Len, ParserPriorityQueue.Swap, heap.down,
      ParserPriorityQueue.Pop]
  · simp only [List.concat_eq_append]
    have hsw : (⟨x :: (t1 ++ [z])⟩ : ParserPriorityQueue).Swap 0 (t1.length + 1) =
        ⟨(z :: t1) ++ [x]⟩ := by
      simp [ParserPriorityQueue.Swap]
    have hd := down_append [x] (t1.length + 1) (z :: t1) 0 (t1.length + 1) (by simp)
    simp only [heap.Pop, ParserPriorityQueue.Len, List.length_cons, List.length_append,
      List.length_singleton, List.length_nil, Nat.zero_add, Nat.add_sub_cancel]
    simp only [Nat.add_one_ne_zero, if_false, ParserPriorityQueue.Pop]
    rw [hsw, hd]
    simp

/-! ## One iteration of the loop of `Classify` -/

theorem heapPop_items_cons (q : ParserPriorityQueue) (x : ParserQueueItem)
    (t : List ParserQueueItem) (hq : q.items = x :: t) :
    heap.Pop q = some (x, popRest t) := by
  obtain ⟨items⟩ := q
  simp only at hq
  subst hq
  exact heapPop_cons x t

theorem popRest_perm (t : List ParserQueueItem) : (popRest t).items.Perm t := by
  unfold popRest
  refine (down_perm _ _ _ _).trans ?_
  rcases List.eq_nil_or_concat t with rfl | ⟨t1, z, rfl⟩
  · simp
  · simpa [List.concat_eq_append] using (List.perm_append_singleton z t1).symm

theorem popRest_Len (t : List ParserQueueItem) : (popRest t).Len = t.length := by
  simpa [ParserPriorityQueue.Len] using (popRest_perm t).length_eq

theorem classifyLoop_nil (clock : Clock) (log : String) (fuel : Nat) (st : LoopState)
    (hq : st.parsers.items = []) : classifyLoop clock log fuel st = st := by
  cases fuel with
  | zero => rfl
  | succ fuel => simp [classifyLoop, ParserPriorityQueue.Len, hq]

theorem classifyLoop_reject (clock : Clock) (log : String) (fuel : Nat) (st : LoopState)
    (x : ParserQueueItem) (t : List ParserQueueItem) (hq : st.parsers.items = x :: t)
    (h : accepts log x = false) :
    classifyLoop clock log (fuel + 1) st =
      classifyLoop clock log fuel
        { st with
          parsers := popRest t
          popped := st.popped ++ [bump x]
          invoked := st.invoked ++ [x] } := by
  have hpop := heapPop_items_cons st.parsers x t hq
  unfold accepts at h
  rcases hs : safeLogParse x.logType x.parser log with ⟨ev, err⟩
  rw [hs] at h
  rcases err with _ | e
  · simp at h
  · cases e <;>
      simp_all [classifyLoop, ParserPriorityQueue.Len, ParserPriorityQueue.Peek, bump]

theorem classifyLoop_accept (clock : Clock) (log : String) (fuel : Nat) (st : LoopState)
    (x : ParserQueueItem) (t : List ParserQueueItem) (hq : st.parsers.items = x :: t)
    (h : accepts log x = true) :
    (classifyLoop clock log (fuel + 1) st).parsers = ⟨reset x :: t⟩ ∧
    (classifyLoop clock log (fuel + 1) st).popped = st.popped ∧
    (classifyLoop clock log (fuel + 1) st).invoked = st.invoked ++ [x] ∧
    (classifyLoop clock log (fuel + 1) st).result.LogType = some x.logType ∧
    (((classifyLoop clock log (fuel + 1) st).result.Stream = st.result.Stream ∧
        (classifyLoop clock log (fuel + 1) st).result.Events =
          (safeLogParse x.logType x.parser log).1 ∧
        (safeLogParse x.logType x.parser log).2 = none) ∨
      ((classifyLoop clock log (fuel + 1) st).result.Stream ≠ none ∧
        (classifyLoop clock log (fuel + 1) st).result.Events = st.result.Events ∧
        ∃ stream, (safeLogParse x.logType x.parser log).2 =
          some (GoError.StreamResultsError stream))) := by
  unfold accepts at h
  rcases hs : safeLogParse x.logType x.parser log with ⟨ev, err⟩
  rw [hs] at h
  rcases err with _ | e
  · simp [classifyLoop, ParserPriorityQueue.Len, ParserPriorityQueue.Peek, hq, hs,
      ParserPriorityQueue.setPeekPenalty, reset]
  · cases e <;>
      simp_all [classifyLoop, ParserPriorityQueue.Len, ParserPriorityQueue.Peek,
        ParserPriorityQueue.setPeekPenalty, reset]


/-! ## The order of successive pops -/

theorem popOrder_nil (fuel : Nat) (q : ParserPriorityQueue) (hq : q.items = []) :
    popOrder fuel q = [] := by
  cases fuel with
  | zero => rfl
  | succ fuel => simp [popOrder, heap.Pop, ParserPriorityQueue.Len, hq]

theorem popOrder_cons (fuel : Nat) (q : ParserPriorityQueue) (x : ParserQueueItem)
    (t : List ParserQueueItem) (hq : q.items = x :: t) :
    popOrder (fuel + 1) q = x :: popOrder fuel (popRest t) := by
  simp [popOrder, heapPop_items_cons q x t hq]

/-- Successive pops yield every queued item exactly once. -/
theorem popOrder_perm : ∀ (fuel : Nat) (q : ParserPriorityQueue), q.Len ≤ fuel →
    (popOrder fuel q).Perm q.items := by
  intro fuel
  induction fuel with
  | zero =>
    intro q hq
    have : q.items = [] := List.length_eq_zero.mp (Nat.le_zero.mp hq)
    simp [popOrder, this]
  | succ fuel ih =>
    intro q hq
    rcases hitems : q.items with _ | ⟨x, t⟩
    · simp [popOrder_nil _ q hitems]
    · rw [popOrder_cons fuel q x t hitems]
      have hlen : (popRest t).Len ≤ fuel := by
        rw [popRest_Len]
        simp [ParserPriorityQueue.Len, hitems] at hq
        omega
      exact ((ih _ hlen).trans (popRest_perm t)).cons x

/-- Fuel beyond the queue length changes nothing: the pops stop when the queue is empty. -/
theorem popOrder_fuel : ∀ (fuel : Nat) (q : ParserPriorityQueue), q.Len ≤ fuel →
    popOrder fuel q = popOrder q.Len q := by
  intro fuel
  induction fuel with
  | zero =>
    intro q hq
    have : q.Len = 0 := Nat.le_zero.mp hq
    rw [this]
  | succ fuel ih =>
    intro q hq
    rcases hitems : q.items with _ | ⟨x, t⟩
    · rw [popOrder_nil _ q hitems, popOrder_nil _ q hitems]
    · have hl : q.Len = t.length + 1 := by simp [ParserPriorityQueue.Len, hitems]
      have hlen : (popRest t).Len ≤ fuel := by rw [popRest_Len]; omega
      rw [hl, popOrder_cons fuel q x t hitems, popOrder_cons t.length q x t hitems,
        ih _ hlen, popRest_Len]


/-! ## The loop of `Classify` in closed form -/

/-- The loop, started with at least as much fuel as there are queued items, invokes the
parsers in pop order up to and including the first one that accepts; the rejecting ones are
popped with their penalty raised, and the accepting one stays at the root with penalty zero. -/
theorem classifyLoop_spec (clock : Clock) (log : String) :
    ∀ (fuel : Nat) (st : LoopState), st.parsers.Len ≤ fuel →
      (classifyLoop clock log fuel st).invoked =
          st.invoked ++ (popOrder fuel st.parsers).takeWhile (fun it => !accepts log it) ++
            ((popOrder fuel st.parsers).find? (accepts log)).toList ∧
      (classifyLoop clock log fuel st).popped =
          st.popped ++
            ((popOrder fuel st.parsers).takeWhile (fun it => !accepts log it)).map bump ∧
      (classifyLoop clock log fuel st).result.LogType =
          (match (popOrder fuel st.parsers).find? (accepts log) with
            | some s => some s.logType
            | none => st.result.LogType) ∧
      (match (popOrder fuel st.parsers).dropWhile (fun it => !accepts log it) with
        | [] => (classifyLoop clock log fuel st).parsers.items = []
        | s :: rest =>
          ∃ t, (classifyLoop clock log fuel st).parsers.items = reset s :: t ∧ t.Perm rest) := by
  intro fuel
  induction fuel with
  | zero =>
    intro st hlen
    have : st.parsers.items = [] := List.length_eq_zero.mp (Nat.le_zero.mp hlen)
    simp [classifyLoop, popOrder, this]
  | succ fuel ih =>
    intro st hlen
    rcases hitems : st.parsers.items with _ | ⟨x, t⟩
    · rw [classifyLoop_nil clock log _ st hitems, popOrder_nil _ _ hitems]
      simp [hitems]
    · have hl : (popRest t).Len ≤ fuel := by
        rw [popRest_Len]
        simp [ParserPriorityQueue.Len, hitems] at hlen
        omega
      rw [popOrder_cons fuel _ x t hitems]
      by_cases hacc : accepts log x = true
      · obtain ⟨h1, h2, h3, h4, _⟩ := classifyLoop_accept clock log fuel st x t hitems hacc
        refine ⟨?_, ?_, ?_, ?_⟩
        · simp [h3, hacc]
        · simp [h2, hacc]
        · simp [h4, hacc]
        · simp only [List.dropWhile_cons, hacc, Bool.not_true]
          exact ⟨t, by simp [h1], ((popOrder_perm fuel _ hl).trans (popRest_perm t)).symm⟩
      · have hrej : accepts log x = false := by simpa using hacc
        rw [classifyLoop_reject clock log fuel st x t hitems hrej]
        obtain ⟨h1, h2, h3, h4⟩ := ih
          { st with
            parsers := popRest t
            popped := st.popped ++ [bump x]
            invoked := st.invoked ++ [x] } hl
        refine ⟨?_, ?_, ?_, ?_⟩
        · simp [h1, hrej]
        · simp [h2, hrej]
        · simp [h3, hrej]
        · simpa [hrej] using h4


theorem find?_eq_head?_dropWhile {α : Type} (p : α → Bool) (l : List α) :
    l.find? p = (l.dropWhile (fun x => !p x)).head? := by
  induction l with
  | nil => rfl
  | cons a l ih =>
    by_cases h : p a = true
    · simp [List.find?, List.dropWhile, h]
    · have h' : p a = false := by simpa using h
      simp [List.find?, List.dropWhile, h', ih]

theorem map_touch_takeWhile (log : String) (l : List ParserQueueItem) :
    (l.takeWhile (fun it => !accepts log it)).map (touch log) =
      (l.takeWhile (fun it => !accepts log it)).map bump := by
  apply List.map_congr_left
  intro a ha
  have := List.mem_takeWhile_imp ha
  simp at this
  simp [touch, this]

/-! ## Restoration of the popped items -/

theorem restore_perm : ∀ (popped : List ParserQueueItem) (q : ParserPriorityQueue),
    (popped.foldl (fun q item => heap.Push q item) q).items.Perm (q.items ++ popped) := by
  intro popped
  induction popped with
  | nil => intro q; simp
  | cons a popped ih =>
    intro q
    simp only [List.foldl_cons]
    refine (ih _).trans ?_
    refine ((heapPush_perm q a).append_right popped).trans ?_
    simpa using (@List.perm_middle _ a q.items popped).symm

/-! ## The three exits of `Classify` -/

theorem len_eq_zero_iff (s : String) : len s = 0 ↔ s = "" := by
  obtain ⟨l⟩ := s
  cases l with
  | nil => simp [len, String.utf8ByteSize, String.utf8ByteSize.go]
  | cons a l =>
    have := Char.utf8Size_pos a
    simp [len, String.utf8ByteSize, String.utf8ByteSize.go, String.ext_iff]
    omega

theorem Classify_empty (c : Classifier) (clock : Clock) :
    Classify c "" clock = ⟨{}, c, []⟩ := by
  simp [Classify, len, String.utf8ByteSize, String.utf8ByteSize.go]

theorem Classify_blank (c : Classifier) (log : String) (clock : Clock)
    (h1 : len log ≠ 0) (h2 : len (TrimSpace log) = 0) :
    Classify c log clock =
      ⟨{}, { c with stats := deferredStats c.stats clock (TrimSpace log) {} }, []⟩ := by
  simp [Classify, h1, h2]

theorem Classify_line (c : Classifier) (log : String) (clock : Clock)
    (h2 : len (TrimSpace log) ≠ 0) :
    Classify c log clock =
      ⟨(classifyLoop clock (TrimSpace log) c.parsers.Len
          ⟨c.parsers, [], {}, c.parserStats, []⟩).result,
        { parsers :=
            (classifyLoop clock (TrimSpace log) c.parsers.Len
              ⟨c.parsers, [], {}, c.parserStats, []⟩).popped.foldl
              (fun q item => heap.Push q item)
              (classifyLoop clock (TrimSpace log) c.parsers.Len
                ⟨c.parsers, [], {}, c.parserStats, []⟩).parsers
          stats := deferredStats c.stats clock (TrimSpace log)
            (classifyLoop clock (TrimSpace log) c.parsers.Len
              ⟨c.parsers, [], {}, c.parserStats, []⟩).result
          parserStats :=
            (classifyLoop clock (TrimSpace log) c.parsers.Len
              ⟨c.parsers, [], {}, c.parserStats, []⟩).parserStats },
        (classifyLoop clock (TrimSpace log) c.parsers.Len
          ⟨c.parsers, [], {}, c.parserStats, []⟩).invoked⟩ := by
  have h1 : len log ≠ 0 := by
    intro h
    rw [len_eq_zero_iff] at h
    subst h
    exact h2 (by decide)
  simp [Classify, h1, h2]


/-! ## What one call does to the queue -/

/-- On a line that is non-empty after trimming, the parsers are invoked in pop order, up to
and including the first that accepts. -/
theorem Classify_invoked (c : Classifier) (log : String) (clock : Clock)
    (h2 : len (TrimSpace log) ≠ 0) :
    (Classify c log clock).invoked =
      (popOrder c.parsers.Len c.parsers).takeWhile (fun it => !accepts (TrimSpace log) it) ++
        ((popOrder c.parsers.Len c.parsers).find? (accepts (TrimSpace log))).toList := by
  rw [Classify_line c log clock h2]
  have h := (classifyLoop_spec clock (TrimSpace log) c.parsers.Len
    ⟨c.parsers, [], {}, c.parserStats, []⟩ (Nat.le_refl _)).1
  simpa using h

theorem Classify_LogType (c : Classifier) (log : String) (clock : Clock)
    (h2 : len (TrimSpace log) ≠ 0) :
    (Classify c log clock).result.LogType =
      ((popOrder c.parsers.Len c.parsers).find? (accepts (TrimSpace log))).map
        (fun s => s.logType) := by
  rw [Classify_line c log clock h2]
  have h := (classifyLoop_spec clock (TrimSpace log) c.parsers.Len
    ⟨c.parsers, [], {}, c.parserStats, []⟩ (Nat.le_refl _)).2.2.1
  simp only at h
  rw [h]
  cases (popOrder c.parsers.Len c.parsers).find? (accepts (TrimSpace log)) <;> rfl

/-- On a line that is non-empty after trimming, the queue afterwards holds the invoked items,
each touched, and the items that were not invoked, unchanged. -/
theorem Classify_queue (c : Classifier) (log : String) (clock : Clock)
    (h2 : len (TrimSpace log) ≠ 0) :
    ∃ notInvoked : List ParserQueueItem,
      c.parsers.items.Perm ((Classify c log clock).invoked ++ notInvoked) ∧
      (Classify c log clock).classifier.parsers.items.Perm
        ((Classify c log clock).invoked.map (touch (TrimSpace log)) ++ notInvoked) := by
  have hinv := Classify_invoked c log clock h2
  have hperm := popOrder_perm c.parsers.Len c.parsers (Nat.le_refl _)
  have hsplit := List.takeWhile_append_dropWhile (fun it => !accepts (TrimSpace log) it)
    (popOrder c.parsers.Len c.parsers)
  obtain ⟨_, hpop, _, hq⟩ := classifyLoop_spec clock (TrimSpace log) c.parsers.Len
    ⟨c.parsers, [], {}, c.parserStats, []⟩ (Nat.le_refl _)
  have hfinal : (Classify c log clock).classifier.parsers.items.Perm
      ((classifyLoop clock (TrimSpace log) c.parsers.Len
          ⟨c.parsers, [], {}, c.parserStats, []⟩).parsers.items ++
        (classifyLoop clock (TrimSpace log) c.parsers.Len
          ⟨c.parsers, [], {}, c.parserStats, []⟩).popped) := by
    rw [Classify_line c log clock h2]
    exact restore_perm _ _
  rw [hpop] at hfinal
  rw [hinv, find?_eq_head?_dropWhile]
  simp only [List.nil_append] at hfinal
  generalize popOrder c.parsers.Len c.parsers = order at *
  have hperm1 : c.parsers.items.Perm
      (order.takeWhile (fun it => !accepts (TrimSpace log) it) ++
        order.dropWhile (fun it => !accepts (TrimSpace log) it)) := by
    rw [hsplit]; exact hperm.symm
  rcases hdrop : order.dropWhile (fun it => !accepts (TrimSpace log) it) with _ | ⟨s, rest⟩
  · rw [hdrop] at hq hperm1
    simp only at hq
    rw [hq] at hfinal
    refine ⟨[], ?_, ?_⟩
    · simpa using hperm1
    · simpa [map_touch_takeWhile] using hfinal
  · rw [hdrop] at hq hperm1
    obtain ⟨t, hitems, ht⟩ := hq
    rw [hitems] at hfinal
    have hs : accepts (TrimSpace log) s = true := by
      have := List.head_dropWhile_not (fun it => !accepts (TrimSpace log) it) order
        (by rw [hdrop]; simp)
      simpa [hdrop] using this
    refine ⟨t, ?_, ?_⟩
    · refine hperm1.trans ?_
      simp only [List.head?_cons, Option.toList, List.append_assoc, List.singleton_append]
      exact List.Perm.append_left _ (ht.symm.cons s)
    · refine hfinal.trans ?_
      simp only [List.head?_cons, Option.toList, List.map_append, map_touch_takeWhile,
        List.map_cons, List.map_nil, List.append_assoc, List.singleton_append]
      have : touch (TrimSpace log) s = reset s := by simp [touch, hs]
      rw [this]
      exact List.perm_append_comm


/-! ## Heap order -/

theorem less_penalty_le (x y : ParserQueueItem) (h : x.less y = true) :
    x.penalty ≤ y.penalty := by
  simp [ParserQueueItem.less] at h
  omega

theorem not_less_penalty_le (x y : ParserQueueItem) (h : x.less y = false) :
    y.penalty ≤ x.penalty := by
  simp [ParserQueueItem.less] at h
  omega

theorem Less_penaltyAt (q : ParserPriorityQueue) (a b : Nat) (h : q.Less a b = true) :
    penaltyAt q a ≤ penaltyAt q b := by
  unfold ParserPriorityQueue.Less at h
  unfold penaltyAt
  split at h
  · next x y hx hy => simp [hx, hy, less_penalty_le x y h]
  · simp at h

theorem not_Less_penaltyAt (q : ParserPriorityQueue) (a b : Nat) (ha : a < q.Len)
    (hb : b < q.Len) (h : q.Less a b = false) : penaltyAt q b ≤ penaltyAt q a := by
  simp only [ParserPriorityQueue.Len] at ha hb
  unfold ParserPriorityQueue.Less at h
  unfold penaltyAt
  simp only [List.getElem?_eq_getElem ha, List.getElem?_eq_getElem hb] at h ⊢
  exact not_less_penalty_le _ _ h

theorem getElem?_set_set {α : Type} (l : List α) (i j k : Nat) (x y : α)
    (hi : i < l.length) (hj : j < l.length) :
    ((l.set i y).set j x)[k]? =
      if k = j then some x else if k = i then some y else l[k]? := by
  simp only [List.getElem?_set, List.length_set]
  split_ifs <;> first | rfl | (exfalso; omega)

theorem penaltyAt_Swap (q : ParserPriorityQueue) (i j k : Nat) (hi : i < q.Len)
    (hj : j < q.Len) :
    penaltyAt (q.Swap i j) k =
      if k = j then penaltyAt q i else if k = i then penaltyAt q j else penaltyAt q k := by
  obtain ⟨l⟩ := q
  simp only [ParserPriorityQueue.Len] at hi hj
  simp only [penaltyAt, ParserPriorityQueue.Swap, List.getElem?_eq_getElem hi,
    List.getElem?_eq_getElem hj, getElem?_set_set l i j k _ _ hi hj]
  split_ifs <;> rfl


/-- If the heap order holds everywhere except below position `i`, and the children of `i`
are not smaller than the parent of `i`, then `heap.down` from `i` restores the heap order. -/
theorem down_isHeap : ∀ (fuel : Nat) (q : ParserPriorityQueue) (i : Nat),
    q.Len ≤ fuel + i →
    (∀ j, 0 < j → j < q.Len → (j - 1) / 2 ≠ i → penaltyAt q ((j - 1) / 2) ≤ penaltyAt q j) →
    (∀ j, 0 < j → j < q.Len → (j - 1) / 2 = i → 0 < i →
      penaltyAt q ((i - 1) / 2) ≤ penaltyAt q j) →
    IsHeap (heap.down fuel q i q.Len) := by
  intro fuel
  induction fuel with
  | zero =>
    intro q i hlen ha _ j hj0 hjn
    simp only [heap.down] at hjn ⊢
    exact ha j hj0 hjn (by omega)
  | succ fuel ih =>
    intro q i hlen ha hb
    simp only [heap.down]
    by_cases h1 : 2 * i + 1 ≥ q.Len
    · simp only [h1, if_true]
      intro j hj0 hjn
      exact ha j hj0 hjn (by omega)
    · simp only [h1, if_false]
      obtain ⟨j, hjdef, hjlt, hjpar, hmin1, hmin2⟩ :
          ∃ j, (if (decide (2 * i + 1 + 1 < q.Len) && q.Less (2 * i + 1 + 1) (2 * i + 1)) = true
              then 2 * i + 1 + 1 else 2 * i + 1) = j ∧ j < q.Len ∧
            (j = 2 * i + 1 ∨ j = 2 * i + 2) ∧ penaltyAt q j ≤ penaltyAt q (2 * i + 1) ∧
            (2 * i + 2 < q.Len → penaltyAt q j ≤ penaltyAt q (2 * i + 2)) := by
        by_cases hc : (decide (2 * i + 1 + 1 < q.Len) &&
            q.Less (2 * i + 1 + 1) (2 * i + 1)) = true
        · simp only [Bool.and_eq_true, decide_eq_true_eq] at hc
          refine ⟨2 * i + 2, by simp [hc.1, hc.2], by omega, Or.inr rfl,
            Less_penaltyAt q _ _ hc.2, fun _ => Nat.le_refl _⟩
        · refine ⟨2 * i + 1, by simp [hc], by omega, Or.inl rfl, Nat.le_refl _, ?_⟩
          intro h2
          have : q.Less (2 * i + 1 + 1) (2 * i + 1) = false := by
            simp only [Bool.and_eq_true, decide_eq_true_eq, not_and, Bool.not_eq_true] at hc
            exact hc h2
          exact not_Less_penaltyAt q _ _ h2 (by omega) this
      rw [hjdef]
      have hi : i < q.Len := by omega
      by_cases h3 : q.Less j i = true
      · simp only [h3, Bool.not_true, Bool.false_eq_true, if_false]
        have hji := Less_penaltyAt q j i h3
        have hsw := fun k => penaltyAt_Swap q i j k hi hjlt
        have hL := Swap_Len q i j
        rw [← hL]
        apply ih
        · omega
        · intro k hk0 hkn hkp
          rw [hL] at hkn
          have hij : i ≠ j := by omega
          have gi : penaltyAt (q.Swap i j) i = penaltyAt q j := by
            rw [hsw]; simp [hij]
          by_cases hki : (k - 1) / 2 = i
          · rw [hki, gi]
            by_cases hkj : k = j
            · rw [hkj, hsw]; simpa using hji
            · have hk : k = 2 * i + 1 ∨ k = 2 * i + 2 := by omega
              have gk : penaltyAt (q.Swap i j) k = penaltyAt q k := by
                rw [hsw]; simp [hkj, show k ≠ i by omega]
              rw [gk]
              rcases hk with hk | hk
              · rw [hk]; exact hmin1
              · rw [hk]; exact hmin2 (by omega)
          · by_cases hk_i : k = i
            · rw [hk_i, gi]
              have gp : penaltyAt (q.Swap i j) ((i - 1) / 2) = penaltyAt q ((i - 1) / 2) := by
                rw [hsw]; simp [show (i - 1) / 2 ≠ j by omega, show (i - 1) / 2 ≠ i by omega]
              rw [gp]
              exact hb j (by omega) hjlt (by omega) (by omega)
            · have gk : penaltyAt (q.Swap i j) k = penaltyAt q k := by
                rw [hsw]; simp [hk_i, show k ≠ j by omega]
              have gp : penaltyAt (q.Swap i j) ((k - 1) / 2) = penaltyAt q ((k - 1) / 2) := by
                rw [hsw]; simp [hki, hkp]
              rw [gk, gp]
              exact ha k hk0 hkn hki
        · intro k hk0 hkn hkp hj0
          rw [hL] at hkn
          have hij : i ≠ j := by omega
          have hpj : (j - 1) / 2 = i := by omega
          have gi : penaltyAt (q.Swap i j) i = penaltyAt q j := by
            rw [hsw]; simp [hij]
          have gk : penaltyAt (q.Swap i j) k = penaltyAt q k := by
            rw [hsw]; simp [show k ≠ j by omega, show k ≠ i by omega]
          rw [hpj, gi, gk]
          have := ha k hk0 hkn (by omega)
          rwa [hkp] at this
      · have h3' : q.Less j i = false := by simpa using h3
        simp only [h3', Bool.not_false, if_true]
        have hij := not_Less_penaltyAt q j i hjlt hi h3'
        intro k hk0 hkn
        by_cases hki : (k - 1) / 2 = i
        · rw [hki]
          have hk : k = 2 * i + 1 ∨ k = 2 * i + 2 := by omega
          rcases hk with hk | hk
          · rw [hk]; exact Nat.le_trans hij hmin1
          · rw [hk]; exact Nat.le_trans hij (hmin2 (by omega))
        · exact ha k hk0 hkn hki

/-- The item at the root of a heap has the least penalty. -/
theorem isHeap_root_le (q : ParserPriorityQueue) (hq : IsHeap q) :
    ∀ k, k < q.Len → penaltyAt q 0 ≤ penaltyAt q k := by
  intro k
  induction k using Nat.strong_induction_on with
  | _ k ih =>
    intro hk
    by_cases hk0 : k = 0
    · rw [hk0]
    · exact Nat.le_trans (ih ((k - 1) / 2) (by omega) (by omega)) (hq k (by omega) hk)


theorem penaltyAt_cons_succ (x : ParserQueueItem) (t : List ParserQueueItem) (k : Nat) :
    penaltyAt ⟨x :: t⟩ (k + 1) = penaltyAt ⟨t⟩ k := by
  simp [penaltyAt]

theorem penaltyAt_append_left (l r : List ParserQueueItem) (k : Nat) (hk : k < l.length) :
    penaltyAt ⟨l ++ r⟩ k = penaltyAt ⟨l⟩ k := by
  simp [penaltyAt, List.getElem?_append_left hk]

/-- Removing the root of a heap with `heap.Pop` leaves a heap. -/
theorem popRest_isHeap (x : ParserQueueItem) (t : List ParserQueueItem)
    (hq : IsHeap ⟨x :: t⟩) : IsHeap (popRest t) := by
  rcases List.eq_nil_or_concat t with rfl | ⟨t1, z, rfl⟩
  · intro j hj0 hjn
    simp [popRest, heap.down, ParserPriorityQueue.Len] at hjn
  · simp only [List.concat_eq_append] at hq ⊢
    have hrest : popRest (t1 ++ [z]) =
        heap.down (t1.length + 1) ⟨z :: t1⟩ 0 (⟨z :: t1⟩ : ParserPriorityQueue).Len := by
      simp [popRest, ParserPriorityQueue.Len]
    rw [hrest]
    apply down_isHeap
    · simp [ParserPriorityQueue.Len]
    · intro j hj0 hjn hjp
      simp only [ParserPriorityQueue.Len, List.length_cons] at hjn
      obtain ⟨j', rfl⟩ : ∃ j', j = j' + 1 := ⟨j - 1, by omega⟩
      obtain ⟨p, hp⟩ : ∃ p, (j' + 1 - 1) / 2 = p + 1 := ⟨(j' + 1 - 1) / 2 - 1, by omega⟩
      have h := hq (j' + 1) (by omega) (by simp [ParserPriorityQueue.Len]; omega)
      rw [hp] at h ⊢
      rw [penaltyAt_cons_succ, penaltyAt_cons_succ,
        penaltyAt_append_left _ _ _ (by omega), penaltyAt_append_left _ _ _ (by omega)] at h
      rwa [penaltyAt_cons_succ, penaltyAt_cons_succ]
    · intro j _ _ _ h0
      exact absurd h0 (Nat.lt_irrefl 0)

theorem penalty_root_le_of_mem (x y : ParserQueueItem) (t : List ParserQueueItem)
    (hq : IsHeap ⟨x :: t⟩) (hy : y ∈ t) : x.penalty ≤ y.penalty := by
  obtain ⟨k, hk, rfl⟩ := List.mem_iff_getElem.mp hy
  have := isHeap_root_le ⟨x :: t⟩ hq (k + 1) (by simp [ParserPriorityQueue.Len]; omega)
  simpa [penaltyAt, List.getElem?_eq_getElem hk] using this

/-- Successive pops of a heap yield the items in ascending order of penalty. -/
theorem popOrder_sorted : ∀ (fuel : Nat) (q : ParserPriorityQueue), q.Len ≤ fuel → IsHeap q →
    (popOrder fuel q).Pairwise (fun a b => a.penalty ≤ b.penalty) := by
  intro fuel
  induction fuel with
  | zero => intro q _ _; simp [popOrder]
  | succ fuel ih =>
    intro q hlen hq
    rcases hitems : q.items with _ | ⟨x, t⟩
    · simp [popOrder_nil _ q hitems]
    · have hl : (popRest t).Len ≤ fuel := by
        rw [popRest_Len]
        simp [ParserPriorityQueue.Len, hitems] at hlen
        omega
      have hq' : IsHeap ⟨x :: t⟩ := by
        obtain ⟨items⟩ := q
        simp only at hitems
        subst hitems
        exact hq
      rw [popOrder_cons fuel q x t hitems, List.pairwise_cons]
      refine ⟨?_, ih _ hl (popRest_isHeap x t hq')⟩
      intro y hy
      have hyt : y ∈ t := ((popOrder_perm fuel _ hl).trans (popRest_perm t)).mem_iff.mp hy
      exact penalty_root_le_of_mem x y t hq' hyt


/-! ## The fuel of the loops is sufficient -/

/-- With `n ≤ fuel + i` the loop of `heap.down` exits by itself: more fuel changes nothing. -/
theorem down_fuel : ∀ (fuel : Nat) (q : ParserPriorityQueue) (i n : Nat), n ≤ fuel + i →
    heap.down (fuel + 1) q i n = heap.down fuel q i n := by
  intro fuel
  induction fuel with
  | zero =>
    intro q i n h
    have : 2 * i + 1 ≥ n := by omega
    simp [heap.down, this]
  | succ fuel ih =>
    intro q i n h
    rw [heap.down]
    conv => rhs; rw [heap.down]
    dsimp only
    split_ifs <;> first | rfl | (apply ih; omega)

/-- With `j ≤ fuel` the loop of `heap.up` exits by itself: more fuel changes nothing. -/
theorem up_fuel : ∀ (fuel : Nat) (q : ParserPriorityQueue) (j : Nat), j ≤ fuel →
    heap.up (fuel + 1) q j = heap.up fuel q j := by
  intro fuel
  induction fuel with
  | zero =>
    intro q j h
    have : j = 0 := by omega
    simp [heap.up, this]
  | succ fuel ih =>
    intro q j h
    rw [heap.up]
    conv => rhs; rw [heap.up]
    split_ifs with h1
    · rfl
    · apply ih
      simp only [Bool.or_eq_true, decide_eq_true_eq, not_or] at h1
      omega

/-- With as much fuel as there are queued items the loop of `Classify` exits by itself:
more fuel changes nothing. -/
theorem classifyLoop_fuel (clock : Clock) (log : String) :
    ∀ (fuel : Nat) (st : LoopState), st.parsers.Len ≤ fuel →
      classifyLoop clock log (fuel + 1) st = classifyLoop clock log fuel st := by
  intro fuel
  induction fuel with
  | zero =>
    intro st h
    have : st.parsers.items = [] := List.length_eq_zero.mp (Nat.le_zero.mp h)
    rw [classifyLoop_nil _ _ _ _ this, classifyLoop_nil _ _ _ _ this]
  | succ fuel ih =>
    intro st h
    rcases hitems : st.parsers.items with _ | ⟨x, t⟩
    · rw [classifyLoop_nil _ _ _ _ hitems, classifyLoop_nil _ _ _ _ hitems]
    · by_cases hacc : accepts log x = true
      · have e : ∀ fuel, classifyLoop clock log (fuel + 1) st = classifyLoop clock log 1 st := by
          intro fuel
          unfold accepts at hacc
          rcases hs : safeLogParse x.logType x.parser log with ⟨ev, err⟩
          rw [hs] at hacc
          rcases err with _ | e
          · simp [classifyLoop, ParserPriorityQueue.Len, ParserPriorityQueue.Peek, hitems, hs]
          · cases e <;>
              simp_all [classifyLoop, ParserPriorityQueue.Len, ParserPriorityQueue.Peek]
        rw [e (fuel + 1), e fuel]
      · have hrej : accepts log x = false := by simpa using hacc
        rw [classifyLoop_reject clock log _ st x t hitems hrej,
          classifyLoop_reject clock log _ st x t hitems hrej]
        apply ih
        simp only [popRest_Len]
        simp [ParserPriorityQueue.Len, hitems] at h
        omega


/-! ## An accepting root stays at the root -/

theorem Peek_Swap (q : ParserPriorityQueue) (i j : Nat) (hi : 0 < i) (hj : 0 < j) :
    (q.Swap i j).Peek = q.Peek := by
  unfold ParserPriorityQueue.Swap
  split
  · simp [ParserPriorityQueue.Peek, List.getElem?_set_ne, Nat.ne_of_gt hi, Nat.ne_of_gt hj]
  · rfl

theorem Less_lt_Len (q : ParserPriorityQueue) (a b : Nat) (h : q.Less a b = true) :
    a < q.Len ∧ b < q.Len := by
  unfold ParserPriorityQueue.Less at h
  split at h
  · next x y hx hy =>
    exact ⟨(List.getElem?_eq_some.mp hx).1, (List.getElem?_eq_some.mp hy).1⟩
  · simp at h

/-- An item of positive penalty sifted up by `heap.up` never displaces a root of penalty
zero. -/
theorem up_Peek : ∀ (fuel : Nat) (q : ParserPriorityQueue) (j : Nat),
    0 < penaltyAt q j → penaltyAt q 0 = 0 → (heap.up fuel q j).Peek = q.Peek := by
  intro fuel
  induction fuel with
  | zero => intro q j _ _; rfl
  | succ fuel ih =>
    intro q j hj h0
    rw [heap.up]
    split_ifs with h1
    · rfl
    · simp only [Bool.or_eq_true, decide_eq_true_eq, not_or, Bool.not_eq_true',
        Bool.not_eq_false] at h1
      obtain ⟨hne, hless⟩ := h1
      have hle := Less_penaltyAt q _ _ hless
      obtain ⟨hjl, hil⟩ := Less_lt_Len q _ _ hless
      have hi0 : 0 < (j - 1) / 2 := by
        rcases Nat.eq_zero_or_pos ((j - 1) / 2) with h | h
        · rw [h, h0] at hle; omega
        · exact h
      have hsw := fun k => penaltyAt_Swap q ((j - 1) / 2) j k hil hjl
      rw [ih _ _ (by rw [hsw]; simp [hne]; exact hj)
        (by rw [hsw]; simp [show (0 : Nat) ≠ j by omega, show (0 : Nat) ≠ (j - 1) / 2 by omega]
            exact h0)]
      exact Peek_Swap q _ _ hi0 (by omega)

theorem heapPush_Peek (q : ParserPriorityQueue) (x r : ParserQueueItem)
    (hr : q.Peek = some r) (hr0 : r.penalty = 0) (hx : 0 < x.penalty) :
    (heap.Push q x).Peek = some r := by
  obtain ⟨items⟩ := q
  cases items with
  | nil => simp [ParserPriorityQueue.Peek] at hr
  | cons a t =>
    simp only [ParserPriorityQueue.Peek, List.getElem?_cons_zero, Option.some.injEq] at hr
    subst hr
    unfold heap.Push
    rw [up_Peek]
    · simp [ParserPriorityQueue.Push, ParserPriorityQueue.Peek]
    · simp [ParserPriorityQueue.Push, ParserPriorityQueue.Len, penaltyAt]
      exact hx
    · simp [ParserPriorityQueue.Push, penaltyAt, hr0]

theorem restore_Peek : ∀ (popped : List ParserQueueItem) (q : ParserPriorityQueue)
    (r : ParserQueueItem), q.Peek = some r → r.penalty = 0 →
    (∀ x ∈ popped, 0 < x.penalty) →
    (popped.foldl (fun q item => heap.Push q item) q).Peek = some r := by
  intro popped
  induction popped with
  | nil => intro q r hr _ _; simpa using hr
  | cons a popped ih =>
    intro q r hr hr0 hp
    simp only [List.foldl_cons]
    exact ih _ r (heapPush_Peek q a r hr hr0 (hp a (List.mem_cons_self _ _))) hr0
      (fun x hx => hp x (List.mem_cons_of_mem _ hx))


/-! ## Calls in the steady state and the first call -/

theorem accepts_reset (log : String) (x : ParserQueueItem) :
    accepts log (reset x) = accepts log x := rfl

theorem accepts_bump (log : String) (x : ParserQueueItem) :
    accepts log (bump x) = accepts log x := rfl

/-- When the parser at the root accepts the line, it is the only one invoked and the queue
keeps its shape, the root taking penalty zero. -/
theorem Classify_root_accepts (c : Classifier) (log : String) (clock : Clock)
    (r : ParserQueueItem) (t : List ParserQueueItem)
    (h2 : len (TrimSpace log) ≠ 0) (hq : c.parsers.items = r :: t)
    (hacc : accepts (TrimSpace log) r = true) :
    (Classify c log clock).invoked = [r] ∧
    (Classify c log clock).classifier.parsers = ⟨reset r :: t⟩ := by
  rw [Classify_line c log clock h2]
  have hl : c.parsers.Len = t.length + 1 := by simp [ParserPriorityQueue.Len, hq]
  rw [hl]
  obtain ⟨h1, hp, hi, _⟩ := classifyLoop_accept clock (TrimSpace log) t.length
    ⟨c.parsers, [], {}, c.parserStats, []⟩ r t hq hacc
  simp only at hp hi
  simp only [hi, hp, h1, List.nil_append, List.foldl_nil, and_self]

theorem Classify_invoked_length_le (c : Classifier) (log : String) (clock : Clock) :
    (Classify c log clock).invoked.length ≤ c.parsers.Len := by
  by_cases h2 : len (TrimSpace log) = 0
  · by_cases h1 : len log = 0
    · simp [Classify, h1]
    · simp [Classify_blank c log clock h1 h2]
  · obtain ⟨rest, hperm, _⟩ := Classify_queue c log clock h2
    have := hperm.length_eq
    simp only [List.length_append] at this
    simp only [ParserPriorityQueue.Len]
    omega

/-- When some queued parser accepts the line, the call leaves an accepting parser at the
root, with penalty zero. -/
theorem Classify_first (c : Classifier) (log : String) (clock : Clock)
    (h2 : len (TrimSpace log) ≠ 0)
    (hsome : ∃ it ∈ c.parsers.items, accepts (TrimSpace log) it = true) :
    ∃ s, s ∈ c.parsers.items ∧ accepts (TrimSpace log) s = true ∧
      (Classify c log clock).classifier.parsers.Peek = some (reset s) := by
  have hperm := popOrder_perm c.parsers.Len c.parsers (Nat.le_refl _)
  obtain ⟨_, hpop, _, hq⟩ := classifyLoop_spec clock (TrimSpace log) c.parsers.Len
    ⟨c.parsers, [], {}, c.parserStats, []⟩ (Nat.le_refl _)
  rw [Classify_line c log clock h2]
  simp only
  generalize popOrder c.parsers.Len c.parsers = order at *
  rcases hdrop : order.dropWhile (fun it => !accepts (TrimSpace log) it) with _ | ⟨s, rest⟩
  · exfalso
    obtain ⟨it, hit, hacc⟩ := hsome
    have hmem : it ∈ order := hperm.mem_iff.mpr hit
    have := (List.dropWhile_eq_nil_iff.mp hdrop) it hmem
    simp [hacc] at this
  · rw [hdrop] at hq
    obtain ⟨t, hitems, _⟩ := hq
    have hs : accepts (TrimSpace log) s = true := by
      have := List.head_dropWhile_not (fun it => !accepts (TrimSpace log) it) order
        (by rw [hdrop]; simp)
      simpa [hdrop] using this
    have hmem : s ∈ order := by
      have : s ∈ order.dropWhile (fun it => !accepts (TrimSpace log) it) := by
        rw [hdrop]; exact List.mem_cons_self _ _
      exact (List.dropWhile_sublist _).subset this
    refine ⟨s, hperm.mem_iff.mp hmem, hs, ?_⟩
    apply restore_Peek
    · simp [ParserPriorityQueue.Peek, hitems]
    · rfl
    · rw [hpop]
      intro x hx
      simp only [List.nil_append, List.mem_map] at hx
      obtain ⟨y, _, rfl⟩ := hx
      simp [bump]

/-- In the steady state, with an accepting parser at the root, every call invokes exactly
one parser. -/
theorem invocationCounts_steady : ∀ (lines : List (String × Clock)) (c : Classifier)
    (r : ParserQueueItem) (t : List ParserQueueItem), c.parsers.items = r :: t →
    (∀ l ∈ lines, len (TrimSpace l.1) ≠ 0 ∧ accepts (TrimSpace l.1) r = true) →
    invocationCounts c lines = List.replicate lines.length 1 := by
  intro lines
  induction lines with
  | nil => intro c r t _ _; rfl
  | cons l lines ih =>
    intro c r t hq hl
    obtain ⟨log, clock⟩ := l
    obtain ⟨hne, hacc⟩ := hl (log, clock) (List.mem_cons_self _ _)
    obtain ⟨hinv, hpar⟩ := Classify_root_accepts c log clock r t hne hq hacc
    simp only [invocationCounts, hinv, List.length_singleton, List.length_cons,
      List.replicate_succ, List.cons.injEq, true_and]
    refine ⟨rfl, ?_⟩
    apply ih _ (reset r) t (by rw [hpar])
    intro l' hl'
    have := hl l' (List.mem_cons_of_mem _ hl')
    exact ⟨this.1, by rw [accepts_reset]; exact this.2⟩


/-! ## Aggregate counters -/

theorem TrimSpace_empty : TrimSpace "" = "" := by decide

theorem TrimSpace_of_all_space (log : String) (h : ∀ ch ∈ log.data, isSpace ch = true) :
    TrimSpace log = "" := by
  have : log.data.dropWhile isSpace = [] := List.dropWhile_eq_nil_iff.mpr h
  simp [TrimSpace, this]

theorem len_pos_of_TrimSpace (log : String) (h : len (TrimSpace log) ≠ 0) : len log ≠ 0 := by
  intro h0
  rw [len_eq_zero_iff] at h0
  subst h0
  exact h (by decide)

/-- Whenever the raw line is non-empty, the deferred closure runs on the trimmed line and
the returned result. -/
theorem Classify_stats (c : Classifier) (log : String) (clock : Clock) (h1 : len log ≠ 0) :
    (Classify c log clock).classifier.stats =
      deferredStats c.stats clock (TrimSpace log) (Classify c log clock).result := by
  by_cases h2 : len (TrimSpace log) = 0
  · rw [Classify_blank c log clock h1 h2]
  · rw [Classify_line c log clock h2]

theorem Classify_stats_empty (c : Classifier) (log : String) (clock : Clock)
    (h1 : len log = 0) : (Classify c log clock).classifier = c := by
  simp [Classify, h1]

theorem Classify_bytes (c : Classifier) (log : String) (clock : Clock)
    (hB : c.stats.BytesProcessedCount < 2 ^ 64) :
    (Classify c log clock).classifier.stats.BytesProcessedCount =
      (c.stats.BytesProcessedCount + len (TrimSpace log)) % 2 ^ 64 := by
  by_cases h1 : len log = 0
  · rw [Classify_stats_empty c log clock h1]
    have : log = "" := (len_eq_zero_iff log).mp h1
    subst this
    rw [TrimSpace_empty]
    have : len "" = 0 := by decide
    omega
  · rw [Classify_stats c log clock h1]
    unfold deferredStats
    split_ifs <;> rfl

theorem classifyAll_bytes : ∀ (lines : List (String × Clock)) (c : Classifier),
    c.stats.BytesProcessedCount < 2 ^ 64 →
    (classifyAll c lines).stats.BytesProcessedCount =
      (c.stats.BytesProcessedCount + (lines.map (fun l => len (TrimSpace l.1))).sum) % 2 ^ 64 := by
  intro lines
  induction lines with
  | nil => intro c h; simp only [classifyAll, List.map_nil, List.sum_nil]; omega
  | cons l lines ih =>
    intro c h
    obtain ⟨log, clock⟩ := l
    have h1 := Classify_bytes c log clock h
    simp only [classifyAll, List.map_cons, List.sum_cons]
    rw [ih _ (by rw [h1]; omega), h1]
    omega

theorem Classify_logLineCount (c : Classifier) (log : String) (clock : Clock) :
    (Classify c log clock).classifier.stats.LogLineCount =
      if len log = 0 then c.stats.LogLineCount else (c.stats.LogLineCount + 1) % 2 ^ 64 := by
  by_cases h1 : len log = 0
  · rw [Classify_stats_empty c log clock h1]; simp [h1]
  · rw [Classify_stats c log clock h1]
    unfold deferredStats
    simp only [h1, if_false]
    split_ifs <;> rfl

/-- A call on a line that is non-empty after trimming increments exactly one of the two
classification counters; any other call leaves both as they are. -/
theorem Classify_classified (c : Classifier) (log : String) (clock : Clock) :
    (len (TrimSpace log) = 0 →
      (Classify c log clock).classifier.stats.SuccessfullyClassifiedCount =
          c.stats.SuccessfullyClassifiedCount ∧
        (Classify c log clock).classifier.stats.ClassificationFailureCount =
          c.stats.ClassificationFailureCount) ∧
    (len (TrimSpace log) ≠ 0 →
      ((Classify c log clock).result.LogType = none ∧
        (Classify c log clock).classifier.stats.SuccessfullyClassifiedCount =
          c.stats.SuccessfullyClassifiedCount ∧
        (Classify c log clock).classifier.stats.ClassificationFailureCount =
          (c.stats.ClassificationFailureCount + 1) % 2 ^ 64) ∨
      ((Classify c log clock).result.LogType ≠ none ∧
        (Classify c log clock).classifier.stats.SuccessfullyClassifiedCount =
          (c.stats.SuccessfullyClassifiedCount + 1) % 2 ^ 64 ∧
        (Classify c log clock).classifier.stats.ClassificationFailureCount =
          c.stats.ClassificationFailureCount)) := by
  constructor
  · intro h2
    by_cases h1 : len log = 0
    · rw [Classify_stats_empty c log clock h1]; exact ⟨rfl, rfl⟩
    · rw [Classify_stats c log clock h1]
      unfold deferredStats
      simp [h2]
  · intro h2
    have h1 := len_pos_of_TrimSpace log h2
    rw [Classify_stats c log clock h1]
    unfold deferredStats
    have hpos : len (TrimSpace log) > 0 := Nat.pos_of_ne_zero h2
    by_cases hr : (Classify c log clock).result.LogType = none
    · left; simp [hr, hpos]
    · right; simp [hr, hpos]


theorem classifyAll_counts : ∀ (lines : List (String × Clock)) (c : Classifier),
    c.stats.LogLineCount + lines.length < 2 ^ 64 →
    c.stats.SuccessfullyClassifiedCount + c.stats.ClassificationFailureCount + lines.length
      < 2 ^ 64 →
    (classifyAll c lines).stats.LogLineCount =
      c.stats.LogLineCount + lines.countP (fun l => decide (len l.1 ≠ 0)) ∧
    (classifyAll c lines).stats.SuccessfullyClassifiedCount +
        (classifyAll c lines).stats.ClassificationFailureCount =
      c.stats.SuccessfullyClassifiedCount + c.stats.ClassificationFailureCount +
        lines.countP (fun l => decide (len (TrimSpace l.1) ≠ 0)) := by
  intro lines
  induction lines with
  | nil => intro c _ _; simp [classifyAll]
  | cons l lines ih =>
    intro c hL hSF
    obtain ⟨log, clock⟩ := l
    simp only [List.length_cons] at hL hSF
    have h1 := Classify_logLineCount c log clock
    obtain ⟨h2, h3⟩ := Classify_classified c log clock
    simp only [classifyAll, List.countP_cons]
    by_cases ht : len (TrimSpace log) = 0
    · obtain ⟨hs, hf⟩ := h2 ht
      obtain ⟨e1, e2⟩ := ih (Classify c log clock).classifier
        (by rw [h1]; split_ifs <;> omega) (by rw [hs, hf]; omega)
      rw [e1, e2, h1, hs, hf]
      by_cases hr : len log = 0
      · simp [hr, ht]
      · have d1 : decide (len log ≠ 0) = true := by simp [hr]
        have d2 : decide (len (TrimSpace log) ≠ 0) = false := by simp [ht]
        simp only [hr, d1, d2, if_true, Bool.false_eq_true, if_false]
        constructor <;> omega
    · have hr : len log ≠ 0 := len_pos_of_TrimSpace log ht
      rcases h3 ht with ⟨_, hs, hf⟩ | ⟨_, hs, hf⟩
      · obtain ⟨e1, e2⟩ := ih (Classify c log clock).classifier
          (by rw [h1]; split_ifs <;> omega) (by rw [hs, hf]; omega)
        rw [e1, e2, h1, hs, hf]
        have d1 : decide (len log ≠ 0) = true := by simp [hr]
        have d2 : decide (len (TrimSpace log) ≠ 0) = true := by simp [ht]
        simp only [hr, d1, d2, if_true, if_false]
        constructor <;> omega
      · obtain ⟨e1, e2⟩ := ih (Classify c log clock).classifier
          (by rw [h1]; split_ifs <;> omega) (by rw [hs, hf]; omega)
        rw [e1, e2, h1, hs, hf]
        have d1 : decide (len log ≠ 0) = true := by simp [hr]
        have d2 : decide (len (TrimSpace log) ≠ 0) = true := by simp [ht]
        simp only [hr, d1, d2, if_true, if_false]
        constructor <;> omega

theorem countP_le_of_imp {α : Type} (p q : α → Bool) (hpq : ∀ x, p x = true → q x = true) :
    ∀ l : List α, l.countP p ≤ l.countP q ∧
      (l.countP p < l.countP q ↔ ∃ x ∈ l, q x = true ∧ p x = false) := by
  intro l
  induction l with
  | nil => simp
  | cons a l ih =>
    obtain ⟨ih1, ih2⟩ := ih
    simp only [List.countP_cons, List.mem_cons, exists_eq_or_imp]
    by_cases hp : p a = true
    · have hq := hpq a hp
      simp only [hp, hq, if_true, Bool.true_eq_false, and_false, false_or]
      constructor
      · omega
      · rw [← ih2]; omega
    · have hp' : p a = false := by simpa using hp
      by_cases hq : q a = true
      · simp only [hp', hq, if_true, Bool.false_eq_true, if_false, and_self, true_or, iff_true]
        constructor <;> omega
      · have hq' : q a = false := by simpa using hq
        simp only [hp', hq', Bool.false_eq_true, if_false, and_true, false_or, add_zero]
        exact ⟨ih1, by simpa using ih2⟩


/-! ## The returned result -/

/-- The result that the loop builds: untouched when no parser accepts; otherwise it names the
first accepting parser and carries either its batch or its stream. -/
theorem classifyLoop_result (clock : Clock) (log : String) :
    ∀ (fuel : Nat) (st : LoopState), st.parsers.Len ≤ fuel →
      match (popOrder fuel st.parsers).find? (accepts log) with
      | none =>
        (classifyLoop clock log fuel st).result = st.result ∧
        (classifyLoop clock log fuel st).parserStats = st.parserStats
      | some s =>
        (classifyLoop clock log fuel st).result.LogType = some s.logType ∧
        (((classifyLoop clock log fuel st).result.Stream = st.result.Stream ∧
            (classifyLoop clock log fuel st).result.Events =
              (safeLogParse s.logType s.parser log).1 ∧
            (safeLogParse s.logType s.parser log).2 = none) ∨
          ((classifyLoop clock log fuel st).result.Stream ≠ none ∧
            (classifyLoop clock log fuel st).result.Events = st.result.Events ∧
            ∃ stream, (safeLogParse s.logType s.parser log).2 =
              some (GoError.StreamResultsError stream))) := by
  intro fuel
  induction fuel with
  | zero =>
    intro st _
    simp [classifyLoop, popOrder]
  | succ fuel ih =>
    intro st hlen
    rcases hitems : st.parsers.items with _ | ⟨x, t⟩
    · rw [classifyLoop_nil clock log _ st hitems, popOrder_nil _ _ hitems]
      simp
    · have hl : (popRest t).Len ≤ fuel := by
        rw [popRest_Len]
        simp [ParserPriorityQueue.Len, hitems] at hlen
        omega
      rw [popOrder_cons fuel _ x t hitems]
      by_cases hacc : accepts log x = true
      · obtain ⟨_, _, _, h4, h5⟩ := classifyLoop_accept clock log fuel st x t hitems hacc
        simp only [List.find?_cons, hacc]
        exact ⟨h4, h5⟩
      · have hrej : accepts log x = false := by simpa using hacc
        rw [classifyLoop_reject clock log fuel st x t hitems hrej]
        have := ih
          { st with
            parsers := popRest t
            popped := st.popped ++ [bump x]
            invoked := st.invoked ++ [x] } hl
        simpa [List.find?_cons, hrej] using this


/-! ## The queue operations do not look at the parsers -/

section
variable (g : String → ParserInterface → ParserInterface)

theorem Less_withParsers (q : ParserPriorityQueue) (i j : Nat) :
    (q.withParsers g).Less i j = q.Less i j := by
  simp only [ParserPriorityQueue.Less, ParserPriorityQueue.withParsers, List.getElem?_map]
  cases q.items[i]? <;> cases q.items[j]? <;> rfl

theorem Swap_withParsers (q : ParserPriorityQueue) (i j : Nat) :
    (q.withParsers g).Swap i j = (q.Swap i j).withParsers g := by
  simp only [ParserPriorityQueue.Swap, ParserPriorityQueue.withParsers, List.getElem?_map]
  cases q.items[i]? <;> cases q.items[j]? <;> simp [List.map_set]

theorem Len_withParsers (q : ParserPriorityQueue) : (q.withParsers g).Len = q.Len := by
  simp [ParserPriorityQueue.Len, ParserPriorityQueue.withParsers]

theorem up_withParsers : ∀ (fuel : Nat) (q : ParserPriorityQueue) (j : Nat),
    heap.up fuel (q.withParsers g) j = (heap.up fuel q j).withParsers g := by
  intro fuel
  induction fuel with
  | zero => intro q j; rfl
  | succ fuel ih =>
    intro q j
    rw [heap.up, heap.up]
    simp only [Less_withParsers, Swap_withParsers, ih]
    split_ifs <;> rfl

theorem down_withParsers : ∀ (fuel : Nat) (q : ParserPriorityQueue) (i n : Nat),
    heap.down fuel (q.withParsers g) i n = (heap.down fuel q i n).withParsers g := by
  intro fuel
  induction fuel with
  | zero => intro q i n; rfl
  | succ fuel ih =>
    intro q i n
    rw [heap.down, heap.down]
    simp only [Less_withParsers, Swap_withParsers, ih]
    split_ifs <;> rfl

theorem heapPush_withParsers (q : ParserPriorityQueue) (x : ParserQueueItem) :
    heap.Push (q.withParsers g) (replaceParser g x) = (heap.Push q x).withParsers g := by
  have h : (q.withParsers g).Push (replaceParser g x) = (q.Push x).withParsers g := by
    simp [ParserPriorityQueue.Push, ParserPriorityQueue.withParsers]
  simp only [heap.Push, h, Len_withParsers, up_withParsers]

theorem popRest_withParsers (t : List ParserQueueItem) :
    popRest (t.map (replaceParser g)) = (popRest t).withParsers g := by
  unfold popRest
  rw [← down_withParsers]
  simp [ParserPriorityQueue.withParsers, List.map_dropLast]
  cases t.getLast? <;> rfl

theorem restore_withParsers : ∀ (popped : List ParserQueueItem) (q : ParserPriorityQueue),
    (popped.map (replaceParser g)).foldl (fun q item => heap.Push q item) (q.withParsers g) =
      (popped.foldl (fun q item => heap.Push q item) q).withParsers g := by
  intro popped
  induction popped with
  | nil => intro q; rfl
  | cons a popped ih =>
    intro q
    simp only [List.map_cons, List.foldl_cons, heapPush_withParsers, ih]

theorem accepts_eq_of_safeLogParse_eq (log : String) (x y : ParserQueueItem)
    (h : safeLogParse y.logType y.parser log = safeLogParse x.logType x.parser log) :
    accepts log y = accepts log x := by
  simp [accepts, h]

/-- The loop of `Classify` runs alike on two queues whose parsers give the same guarded
outcome or both reject: it tells a parser's panic from an ordinary error no further. -/
theorem classifyLoop_withParsers (clock : Clock) (log : String) :
    ∀ (fuel : Nat) (st : LoopState),
      (∀ it ∈ st.parsers.items,
        safeLogParse it.logType (g it.logType it.parser) log =
            safeLogParse it.logType it.parser log ∨
          (accepts log it = false ∧ accepts log (replaceParser g it) = false)) →
      classifyLoop clock log fuel
          ⟨st.parsers.withParsers g, st.popped.map (replaceParser g), st.result,
            st.parserStats, st.invoked.map (replaceParser g)⟩ =
        ⟨(classifyLoop clock log fuel st).parsers.withParsers g,
          (classifyLoop clock log fuel st).popped.map (replaceParser g),
          (classifyLoop clock log fuel st).result,
          (classifyLoop clock log fuel st).parserStats,
          (classifyLoop clock log fuel st).invoked.map (replaceParser g)⟩ := by
  intro fuel
  induction fuel with
  | zero => intro st _; rfl
  | succ fuel ih =>
    intro st hg
    rcases hitems : st.parsers.items with _ | ⟨x, t⟩
    · rw [classifyLoop_nil clock log _ st hitems,
        classifyLoop_nil clock log _ _ (by simp [ParserPriorityQueue.withParsers, hitems])]
    · have hx := hg x (by rw [hitems]; exact List.mem_cons_self _ _)
      have hitems' : (st.parsers.withParsers g).items =
          replaceParser g x :: t.map (replaceParser g) := by
        simp [ParserPriorityQueue.withParsers, hitems]
      by_cases hacc : accepts log x = true
      · have hsame : safeLogParse x.logType (g x.logType x.parser) log =
            safeLogParse x.logType x.parser log := by
          rcases hx with h | ⟨h, _⟩
          · exact h
          · rw [hacc] at h; exact absurd h (by decide)
        unfold accepts at hacc
        rcases hs : safeLogParse x.logType x.parser log with ⟨ev, err⟩
        rw [hs] at hacc hsame
        rcases err with _ | e
        · simp [classifyLoop, ParserPriorityQueue.Len, ParserPriorityQueue.Peek, hitems,
            replaceParser, ParserPriorityQueue.withParsers, hs, hsame,
            ParserPriorityQueue.setPeekPenalty]
        · cases e <;>
            simp_all [classifyLoop, ParserPriorityQueue.Len, ParserPriorityQueue.Peek,
              replaceParser, ParserPriorityQueue.withParsers,
              ParserPriorityQueue.setPeekPenalty]
      · have hrej : accepts log x = false := by simpa using hacc
        have hrej' : accepts log (replaceParser g x) = false := by
          rcases hx with h | ⟨_, h⟩
          · rw [← hrej]
            exact accepts_eq_of_safeLogParse_eq log x (replaceParser g x) h
          · exact h
        rw [classifyLoop_reject clock log fuel st x t hitems hrej,
          classifyLoop_reject clock log fuel _ (replaceParser g x) (t.map (replaceParser g))
            hitems' hrej']
        have := ih
          { st with
            parsers := popRest t
            popped := st.popped ++ [bump x]
            invoked := st.invoked ++ [x] }
          (by
            intro it hit
            apply hg
            rw [hitems]
            exact List.mem_cons_of_mem _ ((popRest_perm t).mem_iff.mp hit))
        simpa [popRest_withParsers, bump, replaceParser] using this

/-- A whole `Classify` call runs alike on two classifiers whose parsers give the same guarded
outcome on the trimmed line or both reject it. -/
theorem Classify_withParsers (c : Classifier) (log : String) (clock : Clock)
    (hg : ∀ it ∈ c.parsers.items,
      safeLogParse it.logType (g it.logType it.parser) (TrimSpace log) =
          safeLogParse it.logType it.parser (TrimSpace log) ∨
        (accepts (TrimSpace log) it = false ∧
          accepts (TrimSpace log) (replaceParser g it) = false)) :
    Classify (c.withParsers g) log clock =
      ⟨(Classify c log clock).result, (Classify c log clock).classifier.withParsers g,
        (Classify c log clock).invoked.map (replaceParser g)⟩ := by
  by_cases h2 : len (TrimSpace log) = 0
  · by_cases h1 : len log = 0
    · simp [Classify, h1]
    · rw [Classify_blank c log clock h1 h2, Classify_blank _ log clock h1 h2]
      rfl
  · rw [Classify_line c log clock h2, Classify_line _ log clock h2]
    have h := classifyLoop_withParsers g clock (TrimSpace log) c.parsers.Len
      ⟨c.parsers, [], {}, c.parserStats, []⟩ hg
    simp only [List.map_nil] at h
    simp only [Classifier.withParsers, Len_withParsers, h, restore_withParsers]

end


/-! ## Main results -/

theorem reset_touch (log : String) (x : ParserQueueItem) : reset (touch log x) = reset x := by
  unfold touch
  split_ifs <;> rfl

/-- C1. After `Classify` returns, the priority queue holds exactly the items it held before
the call, each exactly once and changed at most in its penalty; in particular it holds the
same multiset of logTypes and has the same length. This is so for every classifier state,
every line and every clock. -/
theorem C1_queue_population (c : Classifier) (log : String) (clock : Clock) :
    ((Classify c log clock).classifier.parsers.items.map reset).Perm
      (c.parsers.items.map reset) ∧
    ((Classify c log clock).classifier.parsers.items.map (fun it => it.logType)).Perm
      (c.parsers.items.map (fun it => it.logType)) ∧
    (Classify c log clock).classifier.parsers.Len = c.parsers.Len := by
  have key : ((Classify c log clock).classifier.parsers.items.map reset).Perm
      (c.parsers.items.map reset) := by
    by_cases h2 : len (TrimSpace log) = 0
    · by_cases h1 : len log = 0
      · simp [Classify, h1]
      · simp [Classify_blank c log clock h1 h2]
    · obtain ⟨rest, h1, h3⟩ := Classify_queue c log clock h2
      refine (h3.map reset).trans ?_
      refine List.Perm.trans ?_ (h1.map reset).symm
      simp only [List.map_append, List.map_map]
      have : (reset ∘ touch (TrimSpace log)) = reset := by
        funext x; exact reset_touch _ x
      rw [this]
  refine ⟨key, ?_, ?_⟩
  · have := key.map (fun it => it.logType)
    simpa [List.map_map, Function.comp, reset] using this
  · have := key.length_eq
    simpa [ParserPriorityQueue.Len] using this

/-- C2. On a line that is non-empty after trimming, `Classify` invokes the parsers in the
order in which successive pops of the queue yield them: the invoked items are the pop order
up to and including the first item whose parser returns a batch or signals a stream, so
that no parser ordered after it is invoked and each one ordered before it is invoked once;
`result.LogType` is the logType of that item; and when no parser succeeds all are invoked,
once each, and `result.LogType` is nil. The pop order lists every queued item once, and when
the queue is a min-heap on penalty it is ascending in penalty. -/
theorem C2_invocation_order (c : Classifier) (log : String) (clock : Clock)
    (h2 : len (TrimSpace log) ≠ 0) (hheap : IsHeap c.parsers) :
    (popOrder c.parsers.Len c.parsers).Perm c.parsers.items ∧
    (popOrder c.parsers.Len c.parsers).Pairwise (fun a b => a.penalty ≤ b.penalty) ∧
    (Classify c log clock).invoked =
      (popOrder c.parsers.Len c.parsers).takeWhile (fun it => !accepts (TrimSpace log) it) ++
        ((popOrder c.parsers.Len c.parsers).find? (accepts (TrimSpace log))).toList ∧
    List.IsPrefix (Classify c log clock).invoked (popOrder c.parsers.Len c.parsers) ∧
    (Classify c log clock).result.LogType =
      ((popOrder c.parsers.Len c.parsers).find? (accepts (TrimSpace log))).map
        (fun s => s.logType) ∧
    ((∀ it ∈ c.parsers.items, accepts (TrimSpace log) it = false) →
      (Classify c log clock).invoked = popOrder c.parsers.Len c.parsers ∧
      (Classify c log clock).result.LogType = none) := by
  have hperm := popOrder_perm c.parsers.Len c.parsers (Nat.le_refl _)
  have hinv := Classify_invoked c log clock h2
  have hlt := Classify_LogType c log clock h2
  refine ⟨hperm, popOrder_sorted _ _ (Nat.le_refl _) hheap, hinv, ?_, hlt, ?_⟩
  · rw [hinv, find?_eq_head?_dropWhile]
    have hsplit := List.takeWhile_append_dropWhile (fun it => !accepts (TrimSpace log) it)
      (popOrder c.parsers.Len c.parsers)
    rcases hdrop : (popOrder c.parsers.Len c.parsers).dropWhile
        (fun it => !accepts (TrimSpace log) it) with _ | ⟨s, rest⟩
    · rw [hdrop] at hsplit
      simp only [List.head?_nil, Option.toList]
      exact ⟨[], by simpa using hsplit⟩
    · rw [hdrop] at hsplit
      exact ⟨rest, by simpa using hsplit⟩
  · intro hall
    have hall' : ∀ it ∈ popOrder c.parsers.Len c.parsers,
        accepts (TrimSpace log) it = false := fun it hit => hall it (hperm.mem_iff.mp hit)
    have hnone : (popOrder c.parsers.Len c.parsers).find? (accepts (TrimSpace log)) = none := by
      rw [List.find?_eq_none]
      intro x hx
      simp [hall' x hx]
    have htake : (popOrder c.parsers.Len c.parsers).takeWhile
        (fun it => !accepts (TrimSpace log) it) = popOrder c.parsers.Len c.parsers := by
      rw [List.takeWhile_eq_self_iff]
      intro x hx
      simp [hall' x hx]
    rw [hinv, hlt, hnone, htake]
    simp


theorem abClassifier_isHeap : IsHeap abClassifier.parsers := by
  intro j hj0 hjn
  have hlen : abClassifier.parsers.Len = 2 := by decide
  rw [hlen] at hjn
  have hj : j = 1 := by omega
  subst hj
  decide

/-- Witness of C2: the two-parser classifier on the line `bx`. -/
theorem C2_invocation_order_witness :
    len (TrimSpace "bx") ≠ 0 ∧ IsHeap abClassifier.parsers ∧
    ((popOrder abClassifier.parsers.Len abClassifier.parsers).Perm abClassifier.parsers.items ∧
    (popOrder abClassifier.parsers.Len abClassifier.parsers).Pairwise
      (fun a b => a.penalty ≤ b.penalty) ∧
    (Classify abClassifier "bx" zeroClock).invoked =
      (popOrder abClassifier.parsers.Len abClassifier.parsers).takeWhile
          (fun it => !accepts (TrimSpace "bx") it) ++
        ((popOrder abClassifier.parsers.Len abClassifier.parsers).find?
          (accepts (TrimSpace "bx"))).toList ∧
    List.IsPrefix (Classify abClassifier "bx" zeroClock).invoked
      (popOrder abClassifier.parsers.Len abClassifier.parsers) ∧
    (Classify abClassifier "bx" zeroClock).result.LogType =
      ((popOrder abClassifier.parsers.Len abClassifier.parsers).find?
        (accepts (TrimSpace "bx"))).map (fun s => s.logType) ∧
    ((∀ it ∈ abClassifier.parsers.items, accepts (TrimSpace "bx") it = false) →
      (Classify abClassifier "bx" zeroClock).invoked =
        popOrder abClassifier.parsers.Len abClassifier.parsers ∧
      (Classify abClassifier "bx" zeroClock).result.LogType = none)) :=
  ⟨by decide, abClassifier_isHeap,
    C2_invocation_order abClassifier "bx" zeroClock (by decide) abClassifier_isHeap⟩

/-- C3. Take a classifier with `N` queued parsers, in any penalty state, and `M ≥ 1` lines,
each non-empty after trimming, such that every queued parser gives the same verdict on all
of them and at least one parser accepts. Then the first `Classify` call invokes at most `N`
parsers and every later call invokes exactly one, so that the calls together make at most
`N + M - 1` invocations. -/
theorem C3_adaptive_convergence (c : Classifier) (first : String × Clock)
    (rest : List (String × Clock))
    (hne : ∀ l ∈ first :: rest, len (TrimSpace l.1) ≠ 0)
    (hfixed : ∀ it ∈ c.parsers.items, ∀ l ∈ first :: rest,
      accepts (TrimSpace l.1) it = accepts (TrimSpace first.1) it)
    (hsome : ∃ it ∈ c.parsers.items, accepts (TrimSpace first.1) it = true) :
    invocationCounts c (first :: rest) =
      (Classify c first.1 first.2).invoked.length :: List.replicate rest.length 1 ∧
    (Classify c first.1 first.2).invoked.length ≤ c.parsers.Len ∧
    (invocationCounts c (first :: rest)).sum ≤ c.parsers.Len + (first :: rest).length - 1 := by
  obtain ⟨log, clock⟩ := first
  have h2 := hne (log, clock) (List.mem_cons_self _ _)
  obtain ⟨s, hs, hacc, hpeek⟩ := Classify_first c log clock h2 hsome
  have hle := Classify_invoked_length_le c log clock
  obtain ⟨t, ht⟩ : ∃ t, (Classify c log clock).classifier.parsers.items = reset s :: t := by
    rcases hq : (Classify c log clock).classifier.parsers.items with _ | ⟨a, t⟩
    · simp [ParserPriorityQueue.Peek, hq] at hpeek
    · simp only [ParserPriorityQueue.Peek, hq, List.getElem?_cons_zero,
        Option.some.injEq] at hpeek
      exact ⟨t, by rw [hpeek]⟩
  have hsteady := invocationCounts_steady rest (Classify c log clock).classifier (reset s) t ht
    (by
      intro l hl
      refine ⟨hne l (List.mem_cons_of_mem _ hl), ?_⟩
      rw [accepts_reset, hfixed s hs l (List.mem_cons_of_mem _ hl)]
      exact hacc)
  have hcounts : invocationCounts c ((log, clock) :: rest) =
      (Classify c log clock).invoked.length :: List.replicate rest.length 1 := by
    simp only [invocationCounts, hsteady]
  refine ⟨hcounts, hle, ?_⟩
  rw [hcounts]
  simp only [List.sum_cons, List.sum_replicate, smul_eq_mul, mul_one, List.length_cons]
  omega

/-- Witness of C3: parser `A` inserted first and parser `B`, on the lines `bx`, `by`, `bz`:
two invocations for the first line, one for each later line, four in all. -/
theorem C3_adaptive_convergence_witness :
    (invocationCounts abClassifier
        (("bx", zeroClock) :: [("by", zeroClock), ("bz", zeroClock)]) =
      (Classify abClassifier "bx" zeroClock).invoked.length ::
        List.replicate [("by", zeroClock), ("bz", zeroClock)].length 1 ∧
    (Classify abClassifier "bx" zeroClock).invoked.length ≤ abClassifier.parsers.Len ∧
    (invocationCounts abClassifier
        (("bx", zeroClock) :: [("by", zeroClock), ("bz", zeroClock)])).sum ≤
      abClassifier.parsers.Len +
        (("bx", zeroClock) :: [("by", zeroClock), ("bz", zeroClock)]).length - 1) ∧
    invocationCounts abClassifier [("bx", zeroClock), ("by", zeroClock), ("bz", zeroClock)] =
      [2, 1, 1] ∧
    (invocationCounts abClassifier
      [("bx", zeroClock), ("by", zeroClock), ("bz", zeroClock)]).sum = 4 :=
  ⟨C3_adaptive_convergence abClassifier ("bx", zeroClock)
      [("by", zeroClock), ("bz", zeroClock)]
      (by
        intro l hl
        simp only [List.mem_cons, List.mem_singleton, List.not_mem_nil, or_false] at hl
        rcases hl with rfl | rfl | rfl <;> decide)
      (by
        intro it hit l hl
        have hitems : abClassifier.parsers.items =
            [⟨"A", prefixParser "A" 'a', 0, 0⟩, ⟨"B", prefixParser "B" 'b', 0, 1⟩] := by rfl
        rw [hitems] at hit
        simp only [List.mem_cons, List.mem_singleton, List.not_mem_nil, or_false] at hit hl
        rcases hit with rfl | rfl <;> rcases hl with rfl | rfl | rfl <;> decide)
      ⟨⟨"B", prefixParser "B" 'b', 0, 1⟩, by
        have hitems : abClassifier.parsers.items =
            [⟨"A", prefixParser "A" 'a', 0, 0⟩, ⟨"B", prefixParser "B" 'b', 0, 1⟩] := by rfl
        rw [hitems]; simp, by decide⟩,
    by decide, by decide⟩


/-- When every queued parser rejects the line, all of them are invoked and no result type is
set. -/
theorem Classify_all_reject (c : Classifier) (log : String) (clock : Clock)
    (h2 : len (TrimSpace log) ≠ 0)
    (hall : ∀ it ∈ c.parsers.items, accepts (TrimSpace log) it = false) :
    (Classify c log clock).invoked.Perm c.parsers.items ∧
    (Classify c log clock).result.LogType = none := by
  have hperm := popOrder_perm c.parsers.Len c.parsers (Nat.le_refl _)
  have hall' : ∀ it ∈ popOrder c.parsers.Len c.parsers,
      accepts (TrimSpace log) it = false := fun it hit => hall it (hperm.mem_iff.mp hit)
  have hnone : (popOrder c.parsers.Len c.parsers).find? (accepts (TrimSpace log)) = none := by
    rw [List.find?_eq_none]
    intro x hx
    simp [hall' x hx]
  have htake : (popOrder c.parsers.Len c.parsers).takeWhile
      (fun it => !accepts (TrimSpace log) it) = popOrder c.parsers.Len c.parsers := by
    rw [List.takeWhile_eq_self_iff]
    intro x hx
    simp [hall' x hx]
  rw [Classify_invoked c log clock h2, Classify_LogType c log clock h2, hnone, htake]
  simpa using hperm

/-- C4. On a line that is non-empty after trimming, the queue after `Classify` holds every
invoked item with its penalty set to zero if its parser succeeded and raised by exactly one
if it failed, and every item that was not invoked unchanged. When `result.LogType` is set,
it names an invoked parser that succeeded and now has penalty zero. When all parsers fail,
every queued item has its penalty raised by exactly one, `result.LogType` is nil and
`classificationFailureCount` is incremented by one (as a 64-bit unsigned counter). -/
theorem C4_penalties (c : Classifier) (log : String) (clock : Clock)
    (h2 : len (TrimSpace log) ≠ 0) :
    (∃ notInvoked : List ParserQueueItem,
      c.parsers.items.Perm ((Classify c log clock).invoked ++ notInvoked) ∧
      (Classify c log clock).classifier.parsers.items.Perm
        ((Classify c log clock).invoked.map (touch (TrimSpace log)) ++ notInvoked)) ∧
    (∀ t, (Classify c log clock).result.LogType = some t →
      ∃ s ∈ (Classify c log clock).invoked,
        accepts (TrimSpace log) s = true ∧ s.logType = t ∧
        reset s ∈ (Classify c log clock).classifier.parsers.items ∧ (reset s).penalty = 0) ∧
    ((∀ it ∈ c.parsers.items, accepts (TrimSpace log) it = false) →
      (Classify c log clock).classifier.parsers.items.Perm (c.parsers.items.map bump) ∧
      (Classify c log clock).result.LogType = none ∧
      (Classify c log clock).classifier.stats.ClassificationFailureCount =
        (c.stats.ClassificationFailureCount + 1) % 2 ^ 64 ∧
      (c.stats.ClassificationFailureCount + 1 < 2 ^ 64 →
        (Classify c log clock).classifier.stats.ClassificationFailureCount =
          c.stats.ClassificationFailureCount + 1)) := by
  have hq := Classify_queue c log clock h2
  refine ⟨hq, ?_, ?_⟩
  · intro t ht
    rw [Classify_LogType c log clock h2] at ht
    rcases hfind : (popOrder c.parsers.Len c.parsers).find? (accepts (TrimSpace log))
      with _ | s
    · rw [hfind] at ht; simp at ht
    · rw [hfind] at ht
      simp only [Option.map_some', Option.some.injEq] at ht
      have hacc : accepts (TrimSpace log) s = true := List.find?_some hfind
      have hmem : s ∈ (Classify c log clock).invoked := by
        rw [Classify_invoked c log clock h2, hfind]
        simp
      obtain ⟨rest, _, hfinal⟩ := hq
      refine ⟨s, hmem, hacc, ht, ?_, rfl⟩
      apply hfinal.mem_iff.mpr
      apply List.mem_append_left
      rw [List.mem_map]
      exact ⟨s, hmem, by simp [touch, hacc]⟩
  · intro hall
    obtain ⟨hinv, hnone⟩ := Classify_all_reject c log clock h2 hall
    obtain ⟨rest, h1, hfinal⟩ := hq
    have hrest : rest = [] := by
      have e1 := h1.length_eq
      have e2 := hinv.length_eq
      simp only [List.length_append] at e1
      exact List.length_eq_zero.mp (by omega)
    subst hrest
    have hF : (Classify c log clock).classifier.stats.ClassificationFailureCount =
        (c.stats.ClassificationFailureCount + 1) % 2 ^ 64 := by
      rcases (Classify_classified c log clock).2 h2 with ⟨_, _, hf⟩ | ⟨hne, _, _⟩
      · exact hf
      · exact absurd hnone hne
    refine ⟨?_, hnone, hF, ?_⟩
    · simp only [List.append_nil] at hfinal h1
      refine hfinal.trans ?_
      have : (Classify c log clock).invoked.map (touch (TrimSpace log)) =
          (Classify c log clock).invoked.map bump := by
        apply List.map_congr_left
        intro a ha
        simp [touch, hall a (hinv.mem_iff.mp ha)]
      rw [this]
      exact hinv.map bump
    · intro hlt
      rw [hF]
      exact Nat.mod_eq_of_lt hlt

/-- Witness of C4: the line `garbage`, which both parsers of the two-parser classifier
reject; both penalties become one and the failure counter becomes one. -/
theorem C4_penalties_witness :
    len (TrimSpace "garbage") ≠ 0 ∧
    ((∃ notInvoked : List ParserQueueItem,
      abClassifier.parsers.items.Perm
        ((Classify abClassifier "garbage" zeroClock).invoked ++ notInvoked) ∧
      (Classify abClassifier "garbage" zeroClock).classifier.parsers.items.Perm
        ((Classify abClassifier "garbage" zeroClock).invoked.map
          (touch (TrimSpace "garbage")) ++ notInvoked)) ∧
    (∀ t, (Classify abClassifier "garbage" zeroClock).result.LogType = some t →
      ∃ s ∈ (Classify abClassifier "garbage" zeroClock).invoked,
        accepts (TrimSpace "garbage") s = true ∧ s.logType = t ∧
        reset s ∈ (Classify abClassifier "garbage" zeroClock).classifier.parsers.items ∧
        (reset s).penalty = 0) ∧
    ((∀ it ∈ abClassifier.parsers.items, accepts (TrimSpace "garbage") it = false) →
      (Classify abClassifier "garbage" zeroClock).classifier.parsers.items.Perm
        (abClassifier.parsers.items.map bump) ∧
      (Classify abClassifier "garbage" zeroClock).result.LogType = none ∧
      (Classify abClassifier "garbage" zeroClock).classifier.stats.ClassificationFailureCount =
        (abClassifier.stats.ClassificationFailureCount + 1) % 2 ^ 64 ∧
      (abClassifier.stats.ClassificationFailureCount + 1 < 2 ^ 64 →
        (Classify abClassifier "garbage" zeroClock).classifier.stats.ClassificationFailureCount =
          abClassifier.stats.ClassificationFailureCount + 1))) ∧
    (Classify abClassifier "garbage" zeroClock).classifier.parsers.items.map
      (fun it => (it.logType, it.penalty)) = [("A", 1), ("B", 1)] ∧
    (Classify abClassifier "garbage" zeroClock).classifier.stats.ClassificationFailureCount = 1 :=
  ⟨by decide, C4_penalties abClassifier "garbage" zeroClock (by decide), by decide, by decide⟩


theorem safeLogParse_panics (logType : String) (parser : ParserInterface) (line r : String)
    (h : parser line = ParseLogOutcome.panics (some r)) :
    safeLogParse logType parser line = (none, some (GoError.parserPanic logType r)) := by
  simp [safeLogParse, h]

theorem safeLogParse_panics_nil (logType : String) (parser : ParserInterface) (line : String)
    (h : parser line = ParseLogOutcome.panics none) :
    safeLogParse logType parser line = (none, none) := by
  simp [safeLogParse, h]

/-- Panics with a value that is not nil are isolated: `safeLogParse` then returns nil
results and a non-nil error that is not a stream-results error, and a `Classify` call is
indifferent to whether a parser panics with such a value or returns an ordinary recognition
error: replacing parsers that so panic on the line by parsers that return an ordinary error
(and leaving the behaviour of the others on the line as it is) gives the same result, the
same aggregate and per-parser stats, the same invocations and the same queue, penalties
included. -/
theorem nonnil_panic_isolation (c : Classifier) (log : String) (clock : Clock)
    (g : String → ParserInterface → ParserInterface)
    (hg : ∀ it ∈ c.parsers.items,
      g it.logType it.parser (TrimSpace log) = it.parser (TrimSpace log) ∨
      ((∃ r, it.parser (TrimSpace log) = ParseLogOutcome.panics (some r)) ∧
        ∃ results e,
          g it.logType it.parser (TrimSpace log) = ParseLogOutcome.returns results (some e) ∧
          ∀ stream, e ≠ GoError.StreamResultsError stream)) :
    (∀ (logType : String) (parser : ParserInterface) (line r : String),
      parser line = ParseLogOutcome.panics (some r) →
        (safeLogParse logType parser line).1 = none ∧
        (safeLogParse logType parser line).2 = some (GoError.parserPanic logType r) ∧
        ∀ stream, (safeLogParse logType parser line).2 ≠
          some (GoError.StreamResultsError stream)) ∧
    (Classify (c.withParsers g) log clock).result = (Classify c log clock).result ∧
    (Classify (c.withParsers g) log clock).classifier.stats =
      (Classify c log clock).classifier.stats ∧
    (Classify (c.withParsers g) log clock).classifier.parserStats =
      (Classify c log clock).classifier.parserStats ∧
    (Classify (c.withParsers g) log clock).classifier.parsers =
      (Classify c log clock).classifier.parsers.withParsers g ∧
    (Classify (c.withParsers g) log clock).invoked =
      (Classify c log clock).invoked.map (replaceParser g) := by
  constructor
  · intro logType parser line r h
    rw [safeLogParse_panics logType parser line r h]
    exact ⟨rfl, rfl, by intro stream hs; cases hs⟩
  · have hverdict : ∀ it ∈ c.parsers.items,
        safeLogParse it.logType (g it.logType it.parser) (TrimSpace log) =
            safeLogParse it.logType it.parser (TrimSpace log) ∨
          (accepts (TrimSpace log) it = false ∧
            accepts (TrimSpace log) (replaceParser g it) = false) := by
      intro it hit
      rcases hg it hit with h | ⟨⟨r, hr⟩, results, e, he, hns⟩
      · left
        simp [safeLogParse, h]
      · right
        constructor
        · simp [accepts, safeLogParse, hr]
        · cases e with
          | StreamResultsError stream => exact absurd rfl (hns stream)
          | EOF => simp [accepts, safeLogParse, replaceParser, he]
          | other msg => simp [accepts, safeLogParse, replaceParser, he]
          | parserPanic lt value => simp [accepts, safeLogParse, replaceParser, he]
    rw [Classify_withParsers g c log clock hverdict]
    exact ⟨rfl, rfl, rfl, rfl, rfl⟩

theorem panicClassifier_items :
    panicClassifier.parsers.items =
      [⟨"P", fun _ => ParseLogOutcome.panics (some "boom"), 0, 0⟩,
       ⟨"Q", fun log => ParseLogOutcome.returns (some [⟨"Q", log⟩]) none, 0, 1⟩] := rfl

/-- The panic isolation scenario: parser `P` panics with a value that is not nil, parser `Q`
accepts, and the call behaves as with `P` returning an ordinary error: the result names `Q`,
the penalty of `P` becomes one and that of `Q` is zero. -/
theorem nonnil_panic_isolation_scenario :
    ((Classify (panicClassifier.withParsers recovered) "anything" zeroClock).result =
      (Classify panicClassifier "anything" zeroClock).result ∧
    (Classify (panicClassifier.withParsers recovered) "anything" zeroClock).classifier.stats =
      (Classify panicClassifier "anything" zeroClock).classifier.stats ∧
    (Classify (panicClassifier.withParsers recovered) "anything" zeroClock).classifier.parserStats =
      (Classify panicClassifier "anything" zeroClock).classifier.parserStats ∧
    (Classify (panicClassifier.withParsers recovered) "anything" zeroClock).classifier.parsers =
      (Classify panicClassifier "anything" zeroClock).classifier.parsers.withParsers recovered ∧
    (Classify (panicClassifier.withParsers recovered) "anything" zeroClock).invoked =
      (Classify panicClassifier "anything" zeroClock).invoked.map (replaceParser recovered)) ∧
    (Classify panicClassifier "anything" zeroClock).result.LogType = some "Q" ∧
    (Classify panicClassifier "anything" zeroClock).classifier.parsers.items.map
      (fun it => (it.logType, it.penalty)) = [("Q", 0), ("P", 1)] :=
  ⟨(nonnil_panic_isolation panicClassifier "anything" zeroClock recovered
      (by
        intro it hit
        rw [panicClassifier_items] at hit
        simp only [List.mem_cons, List.mem_singleton, List.not_mem_nil, or_false] at hit
        rcases hit with rfl | rfl
        · right
          exact ⟨⟨"boom", rfl⟩, none, GoError.parserPanic "P" "boom", rfl,
            by intro stream h; cases h⟩
        · left
          rfl)).2,
    by decide, by decide⟩

/-- C5 fails on the code for the nil panic value. When parser `P` calls `panic(nil)`,
`recover()` returns nil, the guard `r != nil` of `safeLogParse` does not fire and
`safeLogParse` returns nil results with a nil error. `Classify` takes that for a batch
success: it names `P` in `result.LogType`, resets the penalty of `P` to zero, counts the
line as successfully classified and never invokes `Q`. With `P` panicking with any other
value, as with `P` returning an ordinary recognition error, the same call names `Q` and
raises the penalty of `P` to one. -/
theorem C5_nil_panic_taken_for_success :
    safeLogParse "P" (fun _ => ParseLogOutcome.panics none) "anything" = (none, none) ∧
    (Classify nilPanicClassifier "anything" zeroClock).result.LogType = some "P" ∧
    (Classify nilPanicClassifier "anything" zeroClock).result.Events = none ∧
    (Classify nilPanicClassifier "anything" zeroClock).invoked.map (fun it => it.logType) =
      ["P"] ∧
    (Classify nilPanicClassifier "anything" zeroClock).classifier.parsers.items.map
      (fun it => (it.logType, it.penalty)) = [("P", 0), ("Q", 0)] ∧
    (Classify nilPanicClassifier "anything"
      zeroClock).classifier.stats.SuccessfullyClassifiedCount = 1 ∧
    (Classify panicClassifier "anything" zeroClock).result.LogType = some "Q" ∧
    (Classify panicClassifier "anything" zeroClock).classifier.parsers.items.map
      (fun it => (it.logType, it.penalty)) = [("Q", 0), ("P", 1)] ∧
    (Classify (panicClassifier.withParsers recovered) "anything" zeroClock).result.LogType =
      some "Q" := by
  decide

/-- The result of a call on a line that is non-empty after trimming. -/
theorem Classify_result (c : Classifier) (log : String) (clock : Clock)
    (h2 : len (TrimSpace log) ≠ 0) :
    match (popOrder c.parsers.Len c.parsers).find? (accepts (TrimSpace log)) with
    | none => (Classify c log clock).result = {}
    | some s =>
      (Classify c log clock).result.LogType = some s.logType ∧
      (((Classify c log clock).result.Stream = none ∧
          (Classify c log clock).result.Events =
            (safeLogParse s.logType s.parser (TrimSpace log)).1 ∧
          (safeLogParse s.logType s.parser (TrimSpace log)).2 = none) ∨
        ((Classify c log clock).result.Stream ≠ none ∧
          (Classify c log clock).result.Events = none ∧
          ∃ stream, (safeLogParse s.logType s.parser (TrimSpace log)).2 =
            some (GoError.StreamResultsError stream))) := by
  rw [Classify_line c log clock h2]
  have h := classifyLoop_result clock (TrimSpace log) c.parsers.Len
    ⟨c.parsers, [], {}, c.parserStats, []⟩ (Nat.le_refl _)
  simp only at h
  cases hfind : (popOrder c.parsers.Len c.parsers).find? (accepts (TrimSpace log)) with
  | none => rw [hfind] at h; exact h.1
  | some s => rw [hfind] at h; exact h

/-- The claim C6 as stated fails: a parser that recognises the line and returns an empty
batch makes `Classify` succeed with neither `Events` nor `Stream` carrying payload. -/
theorem C6_counterexample_empty_batch :
    (Classify emptyBatchClassifier "x" zeroClock).result.LogType = some "E" ∧
    ¬ ((eventsLen (Classify emptyBatchClassifier "x" zeroClock).result.Events ≠ 0 ∧
          (Classify emptyBatchClassifier "x" zeroClock).result.Stream = none) ∨
        ((Classify emptyBatchClassifier "x" zeroClock).result.Stream ≠ none ∧
          eventsLen (Classify emptyBatchClassifier "x" zeroClock).result.Events = 0)) := by
  decide

/-- C6 (amended). The result of `Classify` has `LogType` set if and only if some invoked
parser succeeded. On success either `Stream` is nil and `Events` is the batch that the
successful parser returned, which may be empty, or `Stream` is non-nil and `Events` is nil.
On failure both `Events` and `Stream` are nil. -/
theorem C6_result_shape (c : Classifier) (log : String) (clock : Clock) :
    ((Classify c log clock).result.LogType ≠ none ↔
      ∃ it ∈ (Classify c log clock).invoked, accepts (TrimSpace log) it = true) ∧
    ((Classify c log clock).result.LogType ≠ none →
      ((Classify c log clock).result.Stream = none ∧
        ∃ s ∈ (Classify c log clock).invoked,
          (safeLogParse s.logType s.parser (TrimSpace log)).2 = none ∧
          (Classify c log clock).result.Events =
            (safeLogParse s.logType s.parser (TrimSpace log)).1) ∨
      ((Classify c log clock).result.Stream ≠ none ∧
        (Classify c log clock).result.Events = none)) ∧
    ((Classify c log clock).result.LogType = none →
      (Classify c log clock).result.Events = none ∧
      (Classify c log clock).result.Stream = none) := by
  by_cases h2 : len (TrimSpace log) = 0
  · have hres : (Classify c log clock).result = {} ∧ (Classify c log clock).invoked = [] := by
      by_cases h1 : len log = 0
      · simp [Classify, h1]
      · simp [Classify_blank c log clock h1 h2]
    rw [hres.1, hres.2]
    simp
  · have hres := Classify_result c log clock h2
    have hinv := Classify_invoked c log clock h2
    cases hfind : (popOrder c.parsers.Len c.parsers).find? (accepts (TrimSpace log)) with
    | none =>
      rw [hfind] at hres hinv
      simp only at hres
      have hno : ¬ ∃ it ∈ (Classify c log clock).invoked,
          accepts (TrimSpace log) it = true := by
        rintro ⟨it, hit, hacc⟩
        rw [hinv] at hit
        simp only [Option.toList, List.append_nil] at hit
        have := List.mem_takeWhile_imp hit
        simp [hacc] at this
      rw [hres]
      simp only [ne_eq, not_true_eq_false, false_iff, false_implies, true_and, implies_true,
        and_self, and_true]
      exact hno
    | some s =>
      rw [hfind] at hres hinv
      obtain ⟨hlt, hshape⟩ := hres
      have hacc : accepts (TrimSpace log) s = true := List.find?_some hfind
      have hmem : s ∈ (Classify c log clock).invoked := by rw [hinv]; simp
      refine ⟨?_, ?_, ?_⟩
      · rw [hlt]
        simp only [ne_eq, reduceCtorEq, not_false_eq_true, true_iff]
        exact ⟨s, hmem, hacc⟩
      · intro _
        rcases hshape with ⟨hs, he, hn⟩ | ⟨hs, he, _⟩
        · exact Or.inl ⟨hs, s, hmem, hn, he⟩
        · exact Or.inr ⟨hs, he⟩
      · intro h
        rw [hlt] at h
        cases h


/-- The claim C7 as stated fails: one call on a line of six bytes that trims to two bytes
adds two, not six, to `bytesProcessedCount`. -/
theorem C7_counterexample_trimmed_bytes :
    (classifyAll abClassifier [("  bx \n", zeroClock)]).stats.BytesProcessedCount = 2 ∧
    ([("  bx \n", zeroClock)].map (fun l => len l.1)).sum = 6 ∧
    (classifyAll abClassifier [("  bx \n", zeroClock)]).stats.BytesProcessedCount ≠
      ([("  bx \n", zeroClock)].map (fun l => len l.1)).sum := by
  decide

/-- C7 (amended). After any sequence of `Classify` calls on a fresh classifier, short of
64-bit overflow, `bytesProcessedCount` equals the sum of the lengths of the lines after
trimming: the deferred stats update reads the variable `log` after it has been reassigned
to the trimmed line. -/
theorem C7_bytes_trimmed (parsers : List (String × ParserInterface))
    (lines : List (String × Clock))
    (h : (lines.map (fun l => len (TrimSpace l.1))).sum < 2 ^ 64) :
    (classifyAll (NewClassifier parsers) lines).stats.BytesProcessedCount =
      (lines.map (fun l => len (TrimSpace l.1))).sum := by
  have h0 : (NewClassifier parsers).stats.BytesProcessedCount = 0 := rfl
  rw [classifyAll_bytes lines (NewClassifier parsers) (by rw [h0]; decide), h0, Nat.zero_add]
  exact Nat.mod_eq_of_lt h

/-- Witness of C7 (amended): two lines, of trimmed lengths two and two. -/
theorem C7_bytes_trimmed_witness :
    ([("  bx \n", zeroClock), ("by", zeroClock)].map
      (fun l => len (TrimSpace l.1))).sum < 2 ^ 64 ∧
    (classifyAll
        (NewClassifier [("A", prefixParser "A" 'a'), ("B", prefixParser "B" 'b')])
        [("  bx \n", zeroClock), ("by", zeroClock)]).stats.BytesProcessedCount =
      ([("  bx \n", zeroClock), ("by", zeroClock)].map
        (fun l => len (TrimSpace l.1))).sum :=
  ⟨by decide,
    C7_bytes_trimmed [("A", prefixParser "A" 'a'), ("B", prefixParser "B" 'b')]
      [("  bx \n", zeroClock), ("by", zeroClock)] (by decide)⟩

/-- C8 fails on the code: `classifyTimeMicroseconds` is assigned the duration of the last
call, not increased by it. Two calls on a fresh classifier, the first measured at 100
microseconds and the second at 5, leave the counter at 100 and then at 5. -/
theorem C8_classifyTime_decreases :
    (Classify abClassifier "bx" ⟨100, fun _ => 0⟩).classifier.stats.ClassifyTimeMicroseconds
      = 100 ∧
    (Classify (Classify abClassifier "bx" ⟨100, fun _ => 0⟩).classifier "by"
      ⟨5, fun _ => 0⟩).classifier.stats.ClassifyTimeMicroseconds = 5 ∧
    ¬ ((Classify (Classify abClassifier "bx" ⟨100, fun _ => 0⟩).classifier "by"
        ⟨5, fun _ => 0⟩).classifier.stats.ClassifyTimeMicroseconds ≥
      (Classify abClassifier "bx" ⟨100, fun _ => 0⟩).classifier.stats.ClassifyTimeMicroseconds)
    := by
  decide

/-- C9. After any sequence of `Classify` calls on a fresh classifier, short of 64-bit
overflow, `logLineCount` is the number of calls whose raw line was non-empty and
`successfullyClassifiedCount + classificationFailureCount` is the number of calls whose line
was non-empty after trimming; hence the sum is at most `logLineCount`, and it is strictly
less exactly when some non-empty line that trims to the empty line was classified. -/
theorem C9_line_counters (parsers : List (String × ParserInterface))
    (lines : List (String × Clock)) (h : lines.length < 2 ^ 64) :
    (classifyAll (NewClassifier parsers) lines).stats.LogLineCount =
      lines.countP (fun l => decide (len l.1 ≠ 0)) ∧
    (classifyAll (NewClassifier parsers) lines).stats.SuccessfullyClassifiedCount +
        (classifyAll (NewClassifier parsers) lines).stats.ClassificationFailureCount =
      lines.countP (fun l => decide (len (TrimSpace l.1) ≠ 0)) ∧
    (classifyAll (NewClassifier parsers) lines).stats.SuccessfullyClassifiedCount +
        (classifyAll (NewClassifier parsers) lines).stats.ClassificationFailureCount ≤
      (classifyAll (NewClassifier parsers) lines).stats.LogLineCount ∧
    ((classifyAll (NewClassifier parsers) lines).stats.SuccessfullyClassifiedCount +
        (classifyAll (NewClassifier parsers) lines).stats.ClassificationFailureCount <
      (classifyAll (NewClassifier parsers) lines).stats.LogLineCount ↔
      ∃ l ∈ lines, len l.1 ≠ 0 ∧ len (TrimSpace l.1) = 0) := by
  have hL0 : (NewClassifier parsers).stats.LogLineCount = 0 := rfl
  have hS0 : (NewClassifier parsers).stats.SuccessfullyClassifiedCount = 0 := rfl
  have hF0 : (NewClassifier parsers).stats.ClassificationFailureCount = 0 := rfl
  obtain ⟨e1, e2⟩ := classifyAll_counts lines (NewClassifier parsers)
    (by rw [hL0]; omega) (by rw [hS0, hF0]; omega)
  rw [hL0, Nat.zero_add] at e1
  rw [hS0, hF0, Nat.zero_add] at e2
  obtain ⟨hle, hlt⟩ := countP_le_of_imp
    (fun l : String × Clock => decide (len (TrimSpace l.1) ≠ 0))
    (fun l : String × Clock => decide (len l.1 ≠ 0))
    (by
      intro l hl
      simp only [decide_eq_true_eq] at hl ⊢
      exact len_pos_of_TrimSpace l.1 hl) lines
  rw [e1, e2]
  refine ⟨rfl, rfl, hle, ?_⟩
  rw [hlt]
  simp

/-- Witness of C9: four calls, on `bx`, on a blank line, on the empty line and on `zz`. -/
theorem C9_line_counters_witness :
    [("bx", zeroClock), ("   \n", zeroClock), ("", zeroClock), ("zz", zeroClock)].length
      < 2 ^ 64 ∧
    (classifyAll (NewClassifier [("A", prefixParser "A" 'a'), ("B", prefixParser "B" 'b')])
      [("bx", zeroClock), ("   \n", zeroClock), ("", zeroClock),
        ("zz", zeroClock)]).stats.LogLineCount = 3 ∧
    (classifyAll (NewClassifier [("A", prefixParser "A" 'a'), ("B", prefixParser "B" 'b')])
      [("bx", zeroClock), ("   \n", zeroClock), ("", zeroClock),
        ("zz", zeroClock)]).stats.SuccessfullyClassifiedCount = 1 ∧
    (classifyAll (NewClassifier [("A", prefixParser "A" 'a'), ("B", prefixParser "B" 'b')])
      [("bx", zeroClock), ("   \n", zeroClock), ("", zeroClock),
        ("zz", zeroClock)]).stats.ClassificationFailureCount = 1 ∧
    (classifyAll (NewClassifier [("A", prefixParser "A" 'a'), ("B", prefixParser "B" 'b')])
        [("bx", zeroClock), ("   \n", zeroClock), ("", zeroClock),
          ("zz", zeroClock)]).stats.SuccessfullyClassifiedCount +
      (classifyAll (NewClassifier [("A", prefixParser "A" 'a'), ("B", prefixParser "B" 'b')])
        [("bx", zeroClock), ("   \n", zeroClock), ("", zeroClock),
          ("zz", zeroClock)]).stats.ClassificationFailureCount =
      [("bx", zeroClock), ("   \n", zeroClock), ("", zeroClock), ("zz", zeroClock)].countP
        (fun l => decide (len (TrimSpace l.1) ≠ 0)) :=
  ⟨by decide, by decide, by decide, by decide,
    (C9_line_counters [("A", prefixParser "A" 'a'), ("B", prefixParser "B" 'b')]
      [("bx", zeroClock), ("   \n", zeroClock), ("", zeroClock), ("zz", zeroClock)]
      (by decide)).2.1⟩


/-- C10. On a non-empty line that consists of white space only, `Classify` returns the empty
result, invokes no parser, leaves the queue, with every penalty, and the per-parser stats
as they are, increments `logLineCount` by one (as a 64-bit unsigned counter) and leaves
`bytesProcessedCount`, `eventCount`, `successfullyClassifiedCount` and
`classificationFailureCount` unchanged. On the zero-length line it returns the empty result
and leaves the whole classifier, every counter included, unchanged. -/
theorem C10_blank_and_empty_lines (c : Classifier) (log : String) (clock : Clock)
    (hne : log ≠ "") (hws : ∀ ch ∈ log.data, isSpace ch = true) (hrange : c.stats.InRange) :
    (Classify c log clock).result = {} ∧
    (Classify c log clock).invoked = [] ∧
    (Classify c log clock).classifier.parsers = c.parsers ∧
    (Classify c log clock).classifier.parserStats = c.parserStats ∧
    (Classify c log clock).classifier.stats.LogLineCount =
      (c.stats.LogLineCount + 1) % 2 ^ 64 ∧
    (c.stats.LogLineCount + 1 < 2 ^ 64 →
      (Classify c log clock).classifier.stats.LogLineCount = c.stats.LogLineCount + 1) ∧
    (Classify c log clock).classifier.stats.BytesProcessedCount =
      c.stats.BytesProcessedCount ∧
    (Classify c log clock).classifier.stats.EventCount = c.stats.EventCount ∧
    (Classify c log clock).classifier.stats.SuccessfullyClassifiedCount =
      c.stats.SuccessfullyClassifiedCount ∧
    (Classify c log clock).classifier.stats.ClassificationFailureCount =
      c.stats.ClassificationFailureCount ∧
    (Classify c "" clock).result = {} ∧
    (Classify c "" clock).invoked = [] ∧
    (Classify c "" clock).classifier = c := by
  have h1 : len log ≠ 0 := fun h => hne ((len_eq_zero_iff log).mp h)
  have htrim : TrimSpace log = "" := TrimSpace_of_all_space log hws
  have h2 : len (TrimSpace log) = 0 := by rw [htrim]; decide
  obtain ⟨_, hB, _, hE, _, _⟩ := hrange
  rw [Classify_blank c log clock h1 h2, Classify_empty c clock, htrim]
  have hlen : len "" = 0 := by decide
  simp only [deferredStats, hlen, eventsLen, Nat.lt_irrefl, if_false, Nat.add_zero, true_and]
  exact ⟨fun h => Nat.mod_eq_of_lt h, Nat.mod_eq_of_lt hB, Nat.mod_eq_of_lt hE, trivial⟩

/-- Witness of C10: three spaces followed by a newline, on the fresh two-parser classifier. -/
theorem C10_blank_and_empty_lines_witness :
    "   \n" ≠ "" ∧ (∀ ch ∈ "   \n".data, isSpace ch = true) ∧ abClassifier.stats.InRange ∧
    (Classify abClassifier "   \n" zeroClock).result = {} ∧
    (Classify abClassifier "   \n" zeroClock).invoked = [] ∧
    (Classify abClassifier "   \n" zeroClock).classifier.stats.LogLineCount = 1 ∧
    (Classify abClassifier "   \n" zeroClock).classifier.stats.BytesProcessedCount = 0 :=
  ⟨by decide, by decide, by unfold ClassifierStats.InRange; decide,
    (C10_blank_and_empty_lines abClassifier "   \n" zeroClock (by decide) (by decide)
      (by unfold ClassifierStats.InRange; decide)).1,
    (C10_blank_and_empty_lines abClassifier "   \n" zeroClock (by decide) (by decide)
      (by unfold ClassifierStats.InRange; decide)).2.1,
    by decide, by decide⟩

/-! ## Heap order is kept by `heap.up`, by `heap.Push` and by the reset of the root -/

/-- If the heap order holds everywhere except between position `j` and its parent, and the
children of `j` are not smaller than the parent of `j`, then `heap.up` from `j` restores the
heap order. -/
theorem up_isHeap : ∀ (fuel : Nat) (q : ParserPriorityQueue) (j : Nat),
    j ≤ fuel → j < q.Len →
    (∀ k, 0 < k → k < q.Len → k ≠ j → penaltyAt q ((k - 1) / 2) ≤ penaltyAt q k) →
    (∀ k, 0 < k → k < q.Len → (k - 1) / 2 = j → 0 < j →
      penaltyAt q ((j - 1) / 2) ≤ penaltyAt q k) →
    IsHeap (heap.up fuel q j) := by
  intro fuel
  induction fuel with
  | zero =>
    intro q j hj _ ha _ k hk0 hkn
    simp only [heap.up] at hkn ⊢
    exact ha k hk0 hkn (by omega)
  | succ fuel ih =>
    intro q j hj hjl ha hb
    rw [heap.up]
    split_ifs with h1
    · simp only [Bool.or_eq_true, decide_eq_true_eq, Bool.not_eq_true'] at h1
      intro k hk0 hkn
      by_cases hkj : k = j
      · rcases h1 with h1 | h1
        · omega
        · have := not_Less_penaltyAt q j ((j - 1) / 2) hjl (by omega) h1
          rw [hkj]; exact this
      · exact ha k hk0 hkn hkj
    · simp only [Bool.or_eq_true, decide_eq_true_eq, not_or, Bool.not_eq_true',
        Bool.not_eq_false] at h1
      obtain ⟨hne, hless⟩ := h1
      have hle := Less_penaltyAt q _ _ hless
      have hil : (j - 1) / 2 < q.Len := by omega
      have hj0 : 0 < j := by omega
      have hsw := fun k => penaltyAt_Swap q ((j - 1) / 2) j k hil hjl
      have hL := Swap_Len q ((j - 1) / 2) j
      have gi : penaltyAt (q.Swap ((j - 1) / 2) j) ((j - 1) / 2) = penaltyAt q j := by
        rw [hsw]; simp [hne]
      have gj : penaltyAt (q.Swap ((j - 1) / 2) j) j = penaltyAt q ((j - 1) / 2) := by
        rw [hsw]; simp
      apply ih
      · omega
      · rw [hL]; exact hil
      · intro k hk0 hkn hki
        rw [hL] at hkn
        by_cases hkj : k = j
        · rw [hkj, gi, gj]; exact hle
        · have gk : penaltyAt (q.Swap ((j - 1) / 2) j) k = penaltyAt q k := by
            rw [hsw]; simp [hkj, hki]
          rw [gk]
          by_cases hp1 : (k - 1) / 2 = (j - 1) / 2
          · rw [hp1, gi]
            have := ha k hk0 hkn hkj
            rw [hp1] at this
            exact Nat.le_trans hle this
          · by_cases hp2 : (k - 1) / 2 = j
            · rw [hp2, gj]
              exact hb k hk0 hkn hp2 hj0
            · have gp : penaltyAt (q.Swap ((j - 1) / 2) j) ((k - 1) / 2) =
                  penaltyAt q ((k - 1) / 2) := by
                rw [hsw]; simp [hp1, hp2]
              rw [gp]
              exact ha k hk0 hkn hkj
      · intro k hk0 hkn hkp hi0
        rw [hL] at hkn
        have gp : penaltyAt (q.Swap ((j - 1) / 2) j) (((j - 1) / 2 - 1) / 2) =
            penaltyAt q (((j - 1) / 2 - 1) / 2) := by
          rw [hsw]
          simp [show ((j - 1) / 2 - 1) / 2 ≠ j by omega,
            show ((j - 1) / 2 - 1) / 2 ≠ (j - 1) / 2 by omega]
        have hpar := ha ((j - 1) / 2) hi0 hil (by omega)
        rw [gp]
        by_cases hkj : k = j
        · rw [hkj, gj]; exact hpar
        · have gk : penaltyAt (q.Swap ((j - 1) / 2) j) k = penaltyAt q k := by
            rw [hsw]; simp [hkj, show k ≠ (j - 1) / 2 by omega]
          rw [gk]
          have := ha k hk0 hkn hkj
          rw [hkp] at this
          exact Nat.le_trans hpar this

/-- Go `heap.Push` keeps the heap order. -/
theorem heapPush_isHeap (q : ParserPriorityQueue) (x : ParserQueueItem) (hq : IsHeap q) :
    IsHeap (heap.Push q x) := by
  unfold heap.Push
  have hlen : (q.Push x).Len = q.Len + 1 := by
    simp [ParserPriorityQueue.Push, ParserPriorityQueue.Len]
  have hpen : ∀ k, k < q.Len → penaltyAt (q.Push x) k = penaltyAt q k := by
    intro k hk
    obtain ⟨items⟩ := q
    exact penaltyAt_append_left items [x] k hk
  apply up_isHeap
  · omega
  · omega
  · intro k hk0 hkn hkj
    rw [hlen] at hkn hkj
    rw [hpen k (by omega), hpen _ (by omega)]
    exact hq k hk0 (by omega)
  · intro k _ hkn hkp _
    rw [hlen] at hkn hkp
    omega

theorem restore_isHeap : ∀ (popped : List ParserQueueItem) (q : ParserPriorityQueue),
    IsHeap q → IsHeap (popped.foldl (fun q item => heap.Push q item) q) := by
  intro popped
  induction popped with
  | nil => intro q hq; exact hq
  | cons a popped ih =>
    intro q hq
    simp only [List.foldl_cons]
    exact ih _ (heapPush_isHeap q a hq)

/-- Setting the penalty of the root to zero keeps the heap order. -/
theorem reset_root_isHeap (x : ParserQueueItem) (t : List ParserQueueItem)
    (hq : IsHeap ⟨x :: t⟩) : IsHeap ⟨reset x :: t⟩ := by
  intro j hj0 hjn
  obtain ⟨j', rfl⟩ : ∃ j', j = j' + 1 := ⟨j - 1, by omega⟩
  have h := hq (j' + 1) hj0 (by simpa [ParserPriorityQueue.Len] using hjn)
  rw [penaltyAt_cons_succ] at h ⊢
  rcases Nat.eq_zero_or_pos ((j' + 1 - 1) / 2) with h0 | h0
  · rw [h0]
    simp [penaltyAt, reset]
  · obtain ⟨p, hp⟩ : ∃ p, (j' + 1 - 1) / 2 = p + 1 := ⟨(j' + 1 - 1) / 2 - 1, by omega⟩
    rw [hp] at h ⊢
    rw [penaltyAt_cons_succ] at h ⊢
    exact h

/-- The loop of `Classify` keeps the heap order of the queue it works on. -/
theorem classifyLoop_isHeap (clock : Clock) (log : String) :
    ∀ (fuel : Nat) (st : LoopState), IsHeap st.parsers →
      IsHeap (classifyLoop clock log fuel st).parsers := by
  intro fuel
  induction fuel with
  | zero => intro st h; exact h
  | succ fuel ih =>
    intro st h
    rcases hitems : st.parsers.items with _ | ⟨x, t⟩
    · rw [classifyLoop_nil clock log _ st hitems]; exact h
    · have hq : IsHeap ⟨x :: t⟩ := by
        obtain ⟨⟨items⟩, _, _, _, _⟩ := st
        simp only at hitems
        subst hitems
        exact h
      by_cases hacc : accepts log x = true
      · rw [(classifyLoop_accept clock log fuel st x t hitems hacc).1]
        exact reset_root_isHeap x t hq
      · have hrej : accepts log x = false := by simpa using hacc
        rw [classifyLoop_reject clock log fuel st x t hitems hrej]
        exact ih _ (popRest_isHeap x t hq)

/-- One `Classify` call keeps the heap order of the queue. -/
theorem Classify_isHeap (c : Classifier) (log : String) (clock : Clock)
    (h : IsHeap c.parsers) : IsHeap (Classify c log clock).classifier.parsers := by
  by_cases h2 : len (TrimSpace log) = 0
  · by_cases h1 : len log = 0
    · simpa [Classify, h1] using h
    · simpa [Classify_blank c log clock h1 h2] using h
  · rw [Classify_line c log clock h2]
    exact restore_isHeap _ _ (classifyLoop_isHeap clock (TrimSpace log) _ _ h)

theorem classifyAll_isHeap : ∀ (lines : List (String × Clock)) (c : Classifier),
    IsHeap c.parsers → IsHeap (classifyAll c lines).parsers := by
  intro lines
  induction lines with
  | nil => intro c h; exact h
  | cons l lines ih =>
    intro c h
    obtain ⟨log, clock⟩ := l
    exact ih _ (Classify_isHeap c log clock h)

theorem nil_isHeap : IsHeap ⟨[]⟩ := by
  intro j _ hjn
  simp [ParserPriorityQueue.Len] at hjn

theorem construct_isHeap : ∀ (ps : List (String × ParserInterface))
    (q : ParserPriorityQueue), IsHeap q →
    IsHeap (ps.foldl
      (fun q lp => heap.Push q
        { logType := lp.1, parser := lp.2, penalty := 0, insertionIndex := q.Len }) q) := by
  intro ps
  induction ps with
  | nil => intro q hq; exact hq
  | cons a ps ih =>
    intro q hq
    simp only [List.foldl_cons]
    exact ih _ (heapPush_isHeap q _ hq)

/-- The queue of a fresh classifier is a heap. -/
theorem NewParserPriorityQueue_isHeap (parsers : List (String × ParserInterface)) :
    IsHeap (NewParserPriorityQueue parsers) :=
  construct_isHeap parsers ⟨[]⟩ nil_isHeap

/-- The item that `Peek` returns from a heap has the least penalty of all queued items. -/
theorem Peek_min (q : ParserPriorityQueue) (hq : IsHeap q) (r : ParserQueueItem)
    (hr : q.Peek = some r) : ∀ it ∈ q.items, r.penalty ≤ it.penalty := by
  intro it hit
  obtain ⟨k, hk, rfl⟩ := List.mem_iff_getElem.mp hit
  have := isHeap_root_le q hq k hk
  simp only [ParserPriorityQueue.Peek] at hr
  simpa [penaltyAt, hr, List.getElem?_eq_getElem hk] using this

/-- C13. `Classify` keeps the min-heap order of the priority queue although it changes
penalties in place: when before the call no queued item has a smaller penalty than the item
at its heap parent, the same holds after the call, for every line, every clock and every
parser behaviour. Hence after any sequence of `Classify` calls, from such a state or from a
fresh classifier, the queue is a heap and `Peek` returns an item of least penalty. -/
theorem C13_heap_order_preserved (c : Classifier) (log : String) (clock : Clock)
    (h : IsHeap c.parsers) :
    IsHeap (Classify c log clock).classifier.parsers ∧
    (∀ lines : List (String × Clock),
      IsHeap (classifyAll c lines).parsers ∧
      ∀ r, (classifyAll c lines).parsers.Peek = some r →
        ∀ it ∈ (classifyAll c lines).parsers.items, r.penalty ≤ it.penalty) ∧
    (∀ (parsers : List (String × ParserInterface)) (lines : List (String × Clock)),
      IsHeap (classifyAll (NewClassifier parsers) lines).parsers ∧
      ∀ r, (classifyAll (NewClassifier parsers) lines).parsers.Peek = some r →
        ∀ it ∈ (classifyAll (NewClassifier parsers) lines).parsers.items,
          r.penalty ≤ it.penalty) := by
  refine ⟨Classify_isHeap c log clock h, ?_, ?_⟩
  · intro lines
    have hh := classifyAll_isHeap lines c h
    exact ⟨hh, Peek_min _ hh⟩
  · intro parsers lines
    have hh := classifyAll_isHeap lines (NewClassifier parsers)
      (NewParserPriorityQueue_isHeap parsers)
    exact ⟨hh, Peek_min _ hh⟩

/-- Witness of C13: the two-parser classifier, whose queue is a heap, on the line `bx`;
afterwards `B` is at the root with penalty zero and `A` has penalty one. -/
theorem C13_heap_order_preserved_witness :
    IsHeap abClassifier.parsers ∧
    IsHeap (Classify abClassifier "bx" zeroClock).classifier.parsers ∧
    (Classify abClassifier "bx" zeroClock).classifier.parsers.items.map
      (fun it => (it.logType, it.penalty)) = [("B", 0), ("A", 1)] :=
  ⟨abClassifier_isHeap,
    (C13_heap_order_preserved abClassifier "bx" zeroClock abClassifier_isHeap).1,
    by decide⟩

/-! ## Per-parser event counts -/

/-- The event count that `updateStats` leaves under a logType: unchanged under every other
key and for the empty logType; installed on the first observation; added to afterwards. -/
theorem eventCountOf_updateStats (m : ParserStatsMap) (stats : ParserStats) (t : String) :
    eventCountOf (updateStats m stats) t =
      if stats.LogType = t ∧ t ≠ "" then
        (match m t with
          | none => stats.EventCount
          | some entry => (entry.EventCount + stats.EventCount) % 2 ^ 64)
      else eventCountOf m t := by
  unfold updateStats
  by_cases h0 : stats.LogType = ""
  · simp only [h0, if_true]
    split_ifs with h
    · exact absurd h.1.symm h.2
    · rfl
  · simp only [h0, if_false]
    by_cases ht : stats.LogType = t
    · subst ht
      simp only [true_and, ne_eq, h0, not_false_eq_true, if_true]
      cases hm : m stats.LogType with
      | none => simp [eventCountOf, Function.update_same]
      | some entry => simp [eventCountOf, Function.update_same]
    · have ht' : t ≠ stats.LogType := fun h => ht h.symm
      simp only [ht, false_and, if_false]
      cases hm : m stats.LogType with
      | none => simp [eventCountOf, Function.update_noteq ht']
      | some entry => simp [eventCountOf, Function.update_noteq ht']

/-- The per-parser table after the loop of `Classify`: untouched when no result type is set,
and otherwise updated once, under the result type, with the length of the returned batch. -/
theorem classifyLoop_parserStats (clock : Clock) (log : String) :
    ∀ (fuel : Nat) (st : LoopState), st.result.LogType = none → st.result.Events = none →
      ((classifyLoop clock log fuel st).result.LogType = none ∧
        (classifyLoop clock log fuel st).parserStats = st.parserStats) ∨
      (∃ stats : ParserStats,
        (classifyLoop clock log fuel st).result.LogType = some stats.LogType ∧
        stats.EventCount = eventsLen (classifyLoop clock log fuel st).result.Events ∧
        (classifyLoop clock log fuel st).parserStats = updateStats st.parserStats stats) := by
  intro fuel
  induction fuel with
  | zero => intro st h1 _; exact Or.inl ⟨h1, rfl⟩
  | succ fuel ih =>
    intro st h1 h2
    rcases hitems : st.parsers.items with _ | ⟨x, t⟩
    · rw [classifyLoop_nil clock log _ st hitems]; exact Or.inl ⟨h1, rfl⟩
    · by_cases hacc : accepts log x = true
      · right
        unfold accepts at hacc
        rcases hs : safeLogParse x.logType x.parser log with ⟨ev, err⟩
        rw [hs] at hacc
        rcases err with _ | e
        · refine ⟨{ LogType := x.logType
                    ParserTimeMicroseconds := toUint64 (clock.parseMicros st.invoked.length)
                    BytesProcessedCount := len log
                    LogLineCount := 1
                    EventCount := eventsLen ev }, ?_⟩
          simp [classifyLoop, ParserPriorityQueue.Len, ParserPriorityQueue.Peek, hitems, hs]
        · cases e with
          | StreamResultsError stream =>
            refine ⟨{ LogType := x.logType
                      ParserTimeMicroseconds := toUint64 (clock.parseMicros st.invoked.length)
                      BytesProcessedCount := len log
                      LogLineCount := 1 }, ?_⟩
            simp [classifyLoop, ParserPriorityQueue.Len, ParserPriorityQueue.Peek, hitems, hs,
              h2, eventsLen]
          | EOF => simp at hacc
          | other msg => simp at hacc
          | parserPanic lt value => simp at hacc
      · have hrej : accepts log x = false := by simpa using hacc
        rw [classifyLoop_reject clock log fuel st x t hitems hrej]
        exact ih _ h1 h2

theorem Classify_parserStats (c : Classifier) (log : String) (clock : Clock) :
    ((Classify c log clock).result.LogType = none ∧
      (Classify c log clock).classifier.parserStats = c.parserStats) ∨
    (∃ stats : ParserStats,
      (Classify c log clock).result.LogType = some stats.LogType ∧
      stats.EventCount = eventsLen (Classify c log clock).result.Events ∧
      (Classify c log clock).classifier.parserStats = updateStats c.parserStats stats) := by
  by_cases h2 : len (TrimSpace log) = 0
  · left
    by_cases h1 : len log = 0
    · simp [Classify, h1]
    · simp [Classify_blank c log clock h1 h2]
  · rw [Classify_line c log clock h2]
    exact classifyLoop_parserStats clock (TrimSpace log) c.parsers.Len
      ⟨c.parsers, [], {}, c.parserStats, []⟩ rfl rfl

/-- What `classifierStream.Next` does, by the next step of the underlying stream. -/
theorem Next_cases (s : classifierStream) (c : Classifier) (elapsed : Int) :
    (∃ err, (s.stream.Next).1 = (none, some err) ∧
      (s.Next c elapsed).1 = (none, some err) ∧ (s.Next c elapsed).2.2 = c) ∨
    (∃ r, (s.stream.Next).1 = (some r, none) ∧
      (s.Next c elapsed).1 = (some r, none) ∧
      (s.Next c elapsed).2.2.parserStats =
        updateStats c.parserStats
          { LogType := r.LogType, ParserTimeMicroseconds := toUint64 elapsed,
            EventCount := 1 }) := by
  obtain ⟨stream⟩ := s
  cases stream with
  | nil => left; exact ⟨GoError.EOF, rfl, rfl, rfl⟩
  | cons step rest =>
    cases step with
    | event r => right; exact ⟨r, rfl, rfl, rfl⟩
    | fail msg => left; exact ⟨GoError.other msg, rfl, rfl, rfl⟩


theorem step_delivered_mono (s : Session) (op : Op) (t : String) :
    s.delivered t ≤ (s.step op).delivered t := by
  cases op with
  | classify log clock =>
    simp only [Session.step]
    cases (Classify s.classifier log clock).result.LogType with
    | none => exact Nat.le_refl _
    | some lt =>
      simp only
      by_cases h : t = lt
      · subst h; simp [Function.update_same]
      · simp [Function.update_noteq h]
  | next i elapsed =>
    simp only [Session.step]
    cases s.streams[i]? with
    | none => exact Nat.le_refl _
    | some stream =>
      simp only
      rcases Next_cases stream s.classifier elapsed with ⟨err, _, h2, _⟩ | ⟨r, _, h2, _⟩
      · rw [h2]
      · rw [h2]
        simp only
        by_cases h : t = r.LogType
        · subst h; simp [Function.update_same]
        · simp [Function.update_noteq h]

theorem run_delivered_mono : ∀ (ops : List Op) (s : Session) (t : String),
    s.delivered t ≤ (s.run ops).delivered t := by
  intro ops
  induction ops with
  | nil => intro s t; exact Nat.le_refl _
  | cons op ops ih =>
    intro s t
    exact Nat.le_trans (step_delivered_mono s op t) (ih (s.step op) t)

/-- One step keeps the event count recorded under a non-empty logType equal to the number of
events delivered for it, short of overflow. -/
theorem step_eventCount (s : Session) (op : Op) (t : String) (ht : t ≠ "")
    (hI : eventCountOf s.classifier.parserStats t = s.delivered t)
    (hov : (s.step op).delivered t < 2 ^ 64) :
    eventCountOf (s.step op).classifier.parserStats t = (s.step op).delivered t := by
  have key : ∀ (stats : ParserStats) (k : Nat), stats.EventCount = k →
      Function.update s.delivered stats.LogType (s.delivered stats.LogType + k) t < 2 ^ 64 →
      eventCountOf (updateStats s.classifier.parserStats stats) t =
        Function.update s.delivered stats.LogType (s.delivered stats.LogType + k) t := by
    intro stats k hk hlt
    rw [eventCountOf_updateStats]
    by_cases h : stats.LogType = t
    · subst h
      simp only [true_and, ne_eq, ht, not_false_eq_true, if_true, Function.update_same] at hlt ⊢
      unfold eventCountOf at hI
      cases hm : s.classifier.parserStats stats.LogType with
      | none =>
        rw [hm] at hI
        simp only at hI ⊢
        omega
      | some entry =>
        rw [hm] at hI
        simp only at hI ⊢
        rw [hI, hk]
        exact Nat.mod_eq_of_lt hlt
    · have h' : t ≠ stats.LogType := fun e => h e.symm
      simp only [h, false_and, if_false, Function.update_noteq h']
      exact hI
  cases op with
  | classify log clock =>
    simp only [Session.step] at hov ⊢
    rcases Classify_parserStats s.classifier log clock with
      ⟨hn, hps⟩ | ⟨stats, hlt, hec, hps⟩
    · rw [hn] at hov ⊢
      rw [hps]
      exact hI
    · rw [hlt] at hov ⊢
      rw [hps]
      exact key stats _ hec hov
  | next i elapsed =>
    simp only [Session.step] at hov ⊢
    cases hst : s.streams[i]? with
    | none => exact hI
    | some stream =>
      rw [hst] at hov
      simp only at hov ⊢
      rcases Next_cases stream s.classifier elapsed with ⟨err, _, h2, h3⟩ | ⟨r, _, h2, h3⟩
      · rw [h2] at hov ⊢
        rw [h3]
        exact hI
      · rw [h2] at hov ⊢
        rw [h3]
        exact key ⟨toUint64 elapsed, 0, 0, 1, r.LogType⟩ 1 rfl hov

theorem run_eventCount : ∀ (ops : List Op) (s : Session) (t : String), t ≠ "" →
    eventCountOf s.classifier.parserStats t = s.delivered t →
    (s.run ops).delivered t < 2 ^ 64 →
    eventCountOf (s.run ops).classifier.parserStats t = (s.run ops).delivered t := by
  intro ops
  induction ops with
  | nil => intro s t _ hI _; exact hI
  | cons op ops ih =>
    intro s t ht hI hov
    have hstep : (s.step op).delivered t < 2 ^ 64 :=
      Nat.lt_of_le_of_lt (run_delivered_mono ops (s.step op) t) hov
    exact ih (s.step op) t ht (step_eventCount s op t ht hI hstep) hov

/-- An event with the empty logType, when a stream delivers it, leaves the per-parser table
as it is. -/
theorem run_no_empty_entry : ∀ (ops : List Op) (s : Session),
    s.classifier.parserStats "" = none → (s.run ops).classifier.parserStats "" = none := by
  intro ops
  induction ops with
  | nil => intro s h; exact h
  | cons op ops ih =>
    intro s h
    apply ih
    have hupd : ∀ stats, updateStats s.classifier.parserStats stats "" = none := by
      intro stats
      unfold updateStats
      by_cases h0 : stats.LogType = ""
      · simp [h0, h]
      · have h0' : "" ≠ stats.LogType := fun e => h0 e.symm
        simp only [h0, if_false]
        cases s.classifier.parserStats stats.LogType <;>
          simp [Function.update_noteq h0', h]
    cases op with
    | classify log clock =>
      simp only [Session.step]
      rcases Classify_parserStats s.classifier log clock with ⟨_, hps⟩ | ⟨stats, _, _, hps⟩
      · rw [hps]; exact h
      · rw [hps]; exact hupd stats
    | next i elapsed =>
      simp only [Session.step]
      cases hst : s.streams[i]? with
      | none => exact h
      | some stream =>
        simp only
        rcases Next_cases stream s.classifier elapsed with ⟨err, _, _, h3⟩ | ⟨r, _, _, h3⟩
        · rw [h3]; exact h
        · rw [h3]; exact hupd _


/-- The claim C11 as stated fails for the empty logType: a parser with the non-empty logType
`S` signals a stream whose one event carries the empty logType; `Next` delivers the event,
and the per-parser table records nothing for it. -/
theorem C11_counterexample_empty_tag :
    (∀ p ∈ emptyTagParsers, p.1 ≠ "") ∧
    ((Session.fresh emptyTagParsers).run
      [Op.classify "blob" zeroClock, Op.next 0 0]).delivered "" = 1 ∧
    ((Session.fresh emptyTagParsers).run
      [Op.classify "blob" zeroClock, Op.next 0 0]).classifier.parserStats "" = none ∧
    eventCountOf ((Session.fresh emptyTagParsers).run
      [Op.classify "blob" zeroClock, Op.next 0 0]).classifier.parserStats "" ≠
    ((Session.fresh emptyTagParsers).run
      [Op.classify "blob" zeroClock, Op.next 0 0]).delivered "" := by
  decide

/-- C11 (amended). After any sequence of `Classify` calls and of `Next` calls on the streams
they return, starting from a fresh classifier and short of 64-bit overflow, the event count
recorded in the per-parser table under a non-empty logType `t` equals the number of events
delivered to the caller for `t`: the lengths of the batches returned by the `Classify` calls
whose `result.LogType` is `t`, plus the events of `LogType` `t` that `Next` returned. Under
the empty logType the table never holds an entry. A `Next` call that gets an error or the
end of the stream returns it unchanged and leaves the classifier, all stats included,
unchanged. -/
theorem C11_event_counts (parsers : List (String × ParserInterface)) (ops : List Op)
    (t : String) (ht : t ≠ "")
    (hov : ((Session.fresh parsers).run ops).delivered t < 2 ^ 64) :
    eventCountOf ((Session.fresh parsers).run ops).classifier.parserStats t =
      ((Session.fresh parsers).run ops).delivered t ∧
    ((Session.fresh parsers).run ops).classifier.parserStats "" = none ∧
    (∀ (s : classifierStream) (c : Classifier) (elapsed : Int) (err : GoError),
      (s.stream.Next).1.2 = some err →
        (s.Next c elapsed).1 = (none, some err) ∧ (s.Next c elapsed).2.2 = c) := by
  refine ⟨run_eventCount ops (Session.fresh parsers) t ht rfl hov,
    run_no_empty_entry ops (Session.fresh parsers) rfl, ?_⟩
  intro s c elapsed err herr
  rcases Next_cases s c elapsed with ⟨e, h1, h2, h3⟩ | ⟨r, h1, _, _⟩
  · rw [h1] at herr
    simp only [Option.some.injEq] at herr
    subst herr
    exact ⟨h2, h3⟩
  · rw [h1] at herr
    cases herr

/-- Witness of C11 (amended): the streaming scenario; parser `S` signals a stream of three
events, the caller drives it to its end, and the table records three events for `S`. -/
theorem C11_event_counts_witness :
    "S" ≠ "" ∧
    ((Session.fresh streamParsers).run
      [Op.classify "blob" zeroClock, Op.next 0 0, Op.next 0 0, Op.next 0 0,
        Op.next 0 0]).delivered "S" < 2 ^ 64 ∧
    eventCountOf ((Session.fresh streamParsers).run
      [Op.classify "blob" zeroClock, Op.next 0 0, Op.next 0 0, Op.next 0 0,
        Op.next 0 0]).classifier.parserStats "S" =
      ((Session.fresh streamParsers).run
        [Op.classify "blob" zeroClock, Op.next 0 0, Op.next 0 0, Op.next 0 0,
          Op.next 0 0]).delivered "S" ∧
    ((Session.fresh streamParsers).run
      [Op.classify "blob" zeroClock, Op.next 0 0, Op.next 0 0, Op.next 0 0,
        Op.next 0 0]).delivered "S" = 3 :=
  ⟨by decide, by decide,
    (C11_event_counts streamParsers
      [Op.classify "blob" zeroClock, Op.next 0 0, Op.next 0 0, Op.next 0 0, Op.next 0 0]
      "S" (by decide) (by decide)).1,
    by decide⟩

/-! ## The DNS parser on a document without a timestamp -/

/-- C12 fails on the code. Whenever the JSON decoder accepts the text and leaves the
`timestamp` field of the event nil, as it does for a well-formed document without that
member, `DNSParser.Parse` stops with a nil-pointer fault in `updatePantherFields`, before
the validator that would have rejected the event is consulted; it does not return nil. This
holds whatever the decoder, the validator and the other collaborators do otherwise. -/
theorem C12_parse_faults_without_timestamp (k : DNSCollaborators) (log : String)
    (event : DNS) (hdecode : k.unmarshal log = some event)
    (htimestamp : event.Timestamp = none) :
    DNSParser.Parse k log = Run.faults ∧
    DNSParser.Parse k log ≠ Run.returns none := by
  have h : DNSParser.Parse k log = Run.faults := by
    simp [DNSParser.Parse, DNS.updatePantherFields, hdecode, htimestamp]
  rw [h]
  exact ⟨rfl, by intro h'; cases h'⟩

/-- Witness of the failure of C12: the document `{}`, which decodes to an event with every
field nil. -/
theorem C12_parse_faults_without_timestamp_witness :
    emptyObjectCollaborators.unmarshal "\x7b\x7d" = some {} ∧
    ({} : DNS).Timestamp = none ∧
    DNSParser.Parse emptyObjectCollaborators "\x7b\x7d" = Run.faults ∧
    DNSParser.Parse emptyObjectCollaborators "\x7b\x7d" ≠ Run.returns none :=
  ⟨by decide, rfl,
    C12_parse_faults_without_timestamp emptyObjectCollaborators "\x7b\x7d" {} (by decide) rfl⟩

end Panther
